import Mathlib

/-!
Verification of `src/tools/twiml_errors.py`:

```python
  (uses the json and requests libraries)
  response = requests.get("https://www.twilio.com/docs/documents/76/twilio-error-codes.json")
  codes = (dictionary comprehension) str(e["code"]) maps-to e["message"] for e in response.json()
  with open("../handlers/twiml/errors.json", "w") as f:
      f.write(json.dumps(codes))
```

Shallow embedding conventions:
* Python strings are modelled as lists of Unicode scalar values (`List Char`);
  lone surrogates, which CPython strings can technically hold, are outside the
  model (the model parser rejects a lone `\uD800`-style escape that CPython's
  `json.loads` would accept).
* JSON numbers are modelled as integers; float literals (fraction/exponent
  forms) are outside the model and make the model parser fail.
* `requests.get` either raises a connection-level error or yields a response
  with a status code and a body; faithful to the script, the status code is
  never consulted (the script calls no `raise_for_status`).
* The exceptions the script can raise are grouped into the spec's taxonomy:
  `requests` connection errors as `network`, `json.JSONDecodeError` as
  `parse`, `KeyError`/`TypeError` from the subscripts `e["code"]` and
  `e["message"]` (and from iterating a non-iterable body) as `schema`, and
  `OSError` from `open`/`write` as `io`.
-/

namespace Twiml

/-- Python strings, as sequences of Unicode scalar values. -/
abbrev Str := List Char

/-- Convenience: the characters of a Lean string literal. -/
def chars (s : String) : Str := s.data

/-- The apostrophe character (kept out of string literals). -/
def squote : Char := Char.ofNat 39

/-- Opening curly brace character. -/
def lbrace : Char := '\x7b'

/-- Closing curly brace character. -/
def rbrace : Char := '\x7d'

/-- JSON values as produced by `json.loads` (numbers restricted to integers). -/
inductive JSON where
  | null
  | bool (b : Bool)
  | num (n : Int)
  | str (s : Str)
  | arr (elems : List JSON)
  | obj (fields : List (Str × JSON))
deriving Repr

instance : Inhabited JSON := ⟨JSON.null⟩

/-- Decimal digits of `n`, most significant first; `fuel ≥ n` makes the
recursion total. -/
def natDecAux : Nat → Nat → Str
  | 0, n => [Nat.digitChar (n % 10)]
  | fuel + 1, n =>
    if n < 10 then [Nat.digitChar n]
    else natDecAux fuel (n / 10) ++ [Nat.digitChar (n % 10)]

/-- Decimal rendering of a natural number, as Python `str`. -/
def natDec (n : Nat) : Str := natDecAux n n

/-- Decimal rendering of an integer, as Python `str` on `int`. -/
def intDec (n : Int) : Str := if n < 0 then '-' :: natDec n.natAbs else natDec n.natAbs

/-- Four lowercase hex digits of `n % 65536`, as in the `\uXXXX` escapes of
`json.dumps`. -/
def toHex4 (n : Nat) : Str :=
  [Nat.digitChar (n / 4096 % 16), Nat.digitChar (n / 256 % 16),
   Nat.digitChar (n / 16 % 16), Nat.digitChar (n % 16)]

/-- Escape of one character in a JSON string, per `json.dumps` with its default
`ensure_ascii=True` (CPython `py_encode_basestring_ascii`): short escapes for
the usual control characters, `\uXXXX` for other non-ASCII or control
characters, surrogate pairs above the BMP. -/
def escapeChar (c : Char) : Str :=
  let n := c.toNat
  if c = '"' then ['\\', '"']
  else if c = '\\' then ['\\', '\\']
  else if n = 8 then ['\\', 'b']
  else if n = 9 then ['\\', 't']
  else if n = 10 then ['\\', 'n']
  else if n = 12 then ['\\', 'f']
  else if n = 13 then ['\\', 'r']
  else if n < 32 ∨ 126 < n then
    if n ≤ 65535 then '\\' :: 'u' :: toHex4 n
    else
      let u := n - 65536
      ('\\' :: 'u' :: toHex4 (55296 + u / 1024)) ++ ('\\' :: 'u' :: toHex4 (56320 + u % 1024))
  else [c]

/-- Escape of a whole string body (without the surrounding quotes). -/
def escapeStr : Str → Str
  | [] => []
  | c :: cs => escapeChar c ++ escapeStr cs

mutual

/-- Serialization exactly as `json.dumps` with default arguments: separators
`", "` and `": "`, no extra whitespace. -/
def dumps : JSON → Str
  | .null => chars "null"
  | .bool true => chars "true"
  | .bool false => chars "false"
  | .num n => intDec n
  | .str s => '"' :: (escapeStr s ++ ['"'])
  | .arr xs => '[' :: (dumpsElems xs ++ [']'])
  | .obj fs => lbrace :: (dumpsFields fs ++ [rbrace])

/-- Serialization of the element list of a JSON array. -/
def dumpsElems : List JSON → Str
  | [] => []
  | x :: xs => dumps x ++ dumpsElemsRest xs

/-- Serialization of the remaining elements, each preceded by `", "`. -/
def dumpsElemsRest : List JSON → Str
  | [] => []
  | x :: xs => ',' :: ' ' :: (dumps x ++ dumpsElemsRest xs)

/-- Serialization of the field list of a JSON object. -/
def dumpsFields : List (Str × JSON) → Str
  | [] => []
  | (k, v) :: fs => ('"' :: (escapeStr k ++ '"' :: ':' :: ' ' :: dumps v)) ++ dumpsFieldsRest fs

/-- Serialization of the remaining fields, each preceded by `", "`. -/
def dumpsFieldsRest : List (Str × JSON) → Str
  | [] => []
  | (k, v) :: fs =>
      ',' :: ' ' :: (('"' :: (escapeStr k ++ '"' :: ':' :: ' ' :: dumps v)) ++ dumpsFieldsRest fs)

end

/-- Quote character chosen by Python `repr` for a string: single quote, unless
the string contains a single quote and no double quote. -/
def reprQuote (s : Str) : Char :=
  if s.contains squote && !(s.contains '"') then '"' else squote

/-- Escape of one character inside a Python `repr` string literal with quote
character `q`. (Approximation: Python additionally `\x`-escapes various
non-printable Unicode; only the backslash, the quote, and ASCII control
characters are escaped here. Reached only when a `code` field is itself a
container, which no claim exercises.) -/
def reprEscChar (q c : Char) : Str :=
  if c = '\\' ∨ c = q then ['\\', c]
  else if c.toNat = 10 then ['\\', 'n']
  else if c.toNat = 13 then ['\\', 'r']
  else if c.toNat = 9 then ['\\', 't']
  else if c.toNat < 32 ∨ c.toNat = 127 then
    ['\\', 'x', Nat.digitChar (c.toNat / 16 % 16), Nat.digitChar (c.toNat % 16)]
  else [c]

/-- Python `repr` of a string. -/
def reprStr (s : Str) : Str :=
  let q := reprQuote s
  q :: (s.foldr (fun c acc => reprEscChar q c ++ acc) [q])

mutual

/-- Python `repr` of a JSON-shaped value (`None`, `True`, `False`, `int`,
`str`, `list`, `dict` as produced by `json.loads`). -/
def pyRepr : JSON → Str
  | .null => chars "None"
  | .bool true => chars "True"
  | .bool false => chars "False"
  | .num n => intDec n
  | .str s => reprStr s
  | .arr xs => '[' :: (pyReprElems xs ++ [']'])
  | .obj fs => lbrace :: (pyReprFields fs ++ [rbrace])

/-- Comma-joined `repr`s of list elements. -/
def pyReprElems : List JSON → Str
  | [] => []
  | [x] => pyRepr x
  | x :: xs => pyRepr x ++ ',' :: ' ' :: pyReprElems xs

/-- Comma-joined `repr`s of dict items. -/
def pyReprFields : List (Str × JSON) → Str
  | [] => []
  | [(k, v)] => reprStr k ++ ':' :: ' ' :: pyRepr v
  | (k, v) :: fs => (reprStr k ++ ':' :: ' ' :: pyRepr v) ++ ',' :: ' ' :: pyReprFields fs

end

/-- Python `str()` applied to a JSON-shaped value, as in `str(e["code"])`:
identity on strings, `repr` otherwise. -/
def pyStr : JSON → Str
  | .str s => s
  | v => pyRepr v

/-- JSON whitespace accepted by `json.loads`: space, tab, LF, CR. -/
def isWs (c : Char) : Bool :=
  decide (c.toNat = 32) || decide (c.toNat = 9) || decide (c.toNat = 10) || decide (c.toNat = 13)

/-- Skipping of leading JSON whitespace. -/
def skipWs : Str → Str
  | [] => []
  | c :: cs => if isWs c then skipWs cs else c :: cs

/-- ASCII decimal digit test. -/
def isDig (c : Char) : Bool := decide (48 ≤ c.toNat) && decide (c.toNat ≤ 57)

/-- Numeric value of an ASCII decimal digit. -/
def digitVal (c : Char) : Nat := c.toNat - 48

/-- Value of one hex digit (both cases accepted, as by `json.loads`). -/
def hexVal (c : Char) : Option Nat :=
  if isDig c then some (c.toNat - 48)
  else if 97 ≤ c.toNat ∧ c.toNat ≤ 102 then some (c.toNat - 87)
  else if 65 ≤ c.toNat ∧ c.toNat ≤ 70 then some (c.toNat - 55)
  else none

/-- Four hex digits, as after `\u` in a JSON string escape. -/
def parseHex4 : Str → Option (Nat × Str)
  | a :: b :: c :: d :: rest =>
    match hexVal a, hexVal b, hexVal c, hexVal d with
    | some va, some vb, some vc, some vd => some (va * 4096 + vb * 256 + vc * 16 + vd, rest)
    | _, _, _, _ => none
  | _ => none

/-- Short escape letters `\" \\ \/ \b \f \n \r \t` of JSON strings. -/
def escShort (e : Char) : Option Char :=
  if e = '"' then some '"'
  else if e = '\\' then some '\\'
  else if e = '/' then some '/'
  else if e = 'b' then some (Char.ofNat 8)
  else if e = 'f' then some (Char.ofNat 12)
  else if e = 'n' then some (Char.ofNat 10)
  else if e = 'r' then some (Char.ofNat 13)
  else if e = 't' then some (Char.ofNat 9)
  else none

/-- Body of a JSON string after the opening quote, as scanned by `json.loads`
in strict mode: raw control characters rejected, surrogate-pair `\uXXXX`
escapes combined. (A lone surrogate escape, which CPython keeps as a lone
surrogate in the result, has no `Char` counterpart and is rejected here.) -/
def parseStrBody : Nat → Str → Option (Str × Str)
  | 0, _ => none
  | _ + 1, [] => none
  | fuel + 1, c :: cs =>
    if c = '"' then some ([], cs)
    else if c = '\\' then
      match cs with
      | [] => none
      | e :: cs2 =>
        if e = 'u' then
          match parseHex4 cs2 with
          | none => none
          | some (n, rest) =>
            if 55296 ≤ n ∧ n < 56320 then
              match rest with
              | '\\' :: 'u' :: rest2 =>
                match parseHex4 rest2 with
                | some (m, rest3) =>
                  if 56320 ≤ m ∧ m < 57344 then
                    match parseStrBody fuel rest3 with
                    | some (s, r) =>
                        some (Char.ofNat (65536 + (n - 55296) * 1024 + (m - 56320)) :: s, r)
                    | none => none
                  else none
                | none => none
              | _ => none
            else if 56320 ≤ n ∧ n < 57344 then none
            else
              match parseStrBody fuel rest with
              | some (s, r) => some (Char.ofNat n :: s, r)
              | none => none
        else
          match escShort e with
          | some c2 =>
            match parseStrBody fuel cs2 with
            | some (s, r) => some (c2 :: s, r)
            | none => none
          | none => none
    else if c.toNat < 32 then none
    else
      match parseStrBody fuel cs with
      | some (s, r) => some (c :: s, r)
      | none => none

/-- Test for the start of the fraction/exponent part of a float literal
(floats are outside the model; the model parser fails on them where
`json.loads` would produce a Python float). -/
def isFloatStart : Str → Bool
  | [] => false
  | c :: _ => decide (c = '.') || decide (c = 'e') || decide (c = 'E')

/-- Unsigned integer literal per the JSON grammar (`0` or a nonzero digit
followed by digits). -/
def parsePosNum : Str → Option (Nat × Str)
  | [] => none
  | c :: rest =>
    if c = '0' then if isFloatStart rest then none else some (0, rest)
    else if isDig c then
      let pr := rest.span isDig
      if isFloatStart pr.2 then none
      else some (pr.1.foldl (fun a d => a * 10 + digitVal d) (digitVal c), pr.2)
    else none

/-- Signed integer literal. -/
def parseNum : Str → Option (JSON × Str)
  | [] => none
  | c :: rest =>
    if c = '-' then
      match parsePosNum rest with
      | some (n, r) => some (.num (-(n : Int)), r)
      | none => none
    else
      match parsePosNum (c :: rest) with
      | some (n, r) => some (.num (n : Int), r)
      | none => none

/-- Key-membership test of the assoc-list model of a Python dict. -/
def containsKey (m : List (Str × JSON)) (k : Str) : Bool :=
  m.any (fun kv => decide (kv.1 = k))

/-- Python dict item assignment `d[k] = v`: an existing key keeps its
position and gets the new value, a new key is appended. -/
def dictInsert (m : List (Str × JSON)) (k : Str) (v : JSON) : List (Str × JSON) :=
  if containsKey m k then m.map (fun kv => if kv.1 = k then (k, v) else kv)
  else m ++ [(k, v)]

/-- Python dict built from a list of key-value pairs by successive item
assignment (what `json.loads` does with the parsed members of an object). -/
def pyDict (kvs : List (Str × JSON)) : List (Str × JSON) :=
  kvs.foldl (fun m kv => dictInsert m kv.1 kv.2) []

mutual

/-- One JSON value, as scanned by `json.loads`, with leading whitespace
skipped. `fuel` bounds the recursion depth; `loads` supplies enough for any
input. -/
def parseValue : Nat → Str → Option (JSON × Str)
  | 0, _ => none
  | fuel + 1, s =>
    match skipWs s with
    | [] => none
    | c :: cs =>
      if c = 'n' then
        match cs with
        | 'u' :: 'l' :: 'l' :: rest => some (.null, rest)
        | _ => none
      else if c = 't' then
        match cs with
        | 'r' :: 'u' :: 'e' :: rest => some (.bool true, rest)
        | _ => none
      else if c = 'f' then
        match cs with
        | 'a' :: 'l' :: 's' :: 'e' :: rest => some (.bool false, rest)
        | _ => none
      else if c = '"' then
        match parseStrBody fuel cs with
        | some (s2, rest) => some (.str s2, rest)
        | none => none
      else if c = '[' then
        match skipWs cs with
        | ']' :: rest => some (.arr [], rest)
        | s2 =>
          match parseElemsLoop fuel s2 with
          | some (xs, rest) => some (.arr xs, rest)
          | none => none
      else if c = lbrace then
        match skipWs cs with
        | [] => none
        | c2 :: rest =>
          if c2 = rbrace then some (.obj [], rest)
          else
            match parseFieldsLoop fuel (c2 :: rest) with
            | some (kvs, rest2) => some (.obj (pyDict kvs), rest2)
            | none => none
      else if c = '-' ∨ isDig c then parseNum (c :: cs)
      else none

/-- Elements of a nonempty JSON array, after the opening bracket. -/
def parseElemsLoop : Nat → Str → Option (List JSON × Str)
  | 0, _ => none
  | fuel + 1, s =>
    match parseValue fuel s with
    | none => none
    | some (v, rest) =>
      match skipWs rest with
      | ',' :: rest2 =>
        match parseElemsLoop fuel rest2 with
        | some (vs, rest3) => some (v :: vs, rest3)
        | none => none
      | ']' :: rest2 => some ([v], rest2)
      | _ => none

/-- Members of a nonempty JSON object, after the opening brace, in source
order (duplicates not yet collapsed). -/
def parseFieldsLoop : Nat → Str → Option (List (Str × JSON) × Str)
  | 0, _ => none
  | fuel + 1, s =>
    match s with
    | '"' :: cs =>
      match parseStrBody fuel cs with
      | some (k, rest) =>
        match skipWs rest with
        | ':' :: rest2 =>
          match parseValue fuel rest2 with
          | some (v, rest3) =>
            match skipWs rest3 with
            | ',' :: rest4 =>
              match parseFieldsLoop fuel (skipWs rest4) with
              | some (kvs, rest5) => some ((k, v) :: kvs, rest5)
              | none => none
            | c3 :: rest4 => if c3 = rbrace then some ([(k, v)], rest4) else none
            | [] => none
          | none => none
        | _ => none
      | none => none
    | _ => none

end

/-- Model of `json.loads` (as called by `response.json()`): scan one value,
then require only whitespace to remain. -/
def loads (s : Str) : Option JSON :=
  match parseValue (s.length + 1) s with
  | some (v, rest) => if skipWs rest = [] then some v else none
  | none => none

/-- Failure taxonomy of the script, following the spec: `network` for
`requests` connection-level errors, `parse` for `json.JSONDecodeError`,
`schema` for the `KeyError`/`TypeError` raised by the subscripts
`e["code"]`/`e["message"]` or by iterating a non-iterable body, `io` for
`OSError` from `open`/`write`. -/
inductive PyErr where
  | network
  | parse
  | schema
  | io
deriving DecidableEq, Repr

/-- Python subscript `v[k]` with a string key: `KeyError` when the key is
absent from a dict, `TypeError` on any non-dict (both fatal, grouped as
`schema`). -/
def getItem (v : JSON) (k : Str) : Except PyErr JSON :=
  match v with
  | .obj fs =>
    match fs.find? (fun kv => decide (kv.1 = k)) with
    | some kv => .ok kv.2
    | none => .error .schema
  | _ => .error .schema

/-- Key `"code"` accessed by the comprehension. -/
def codeKey : Str := chars "code"

/-- Key `"message"` accessed by the comprehension. -/
def messageKey : Str := chars "message"

/-- Python iteration `for e in j`: a list yields its elements, a dict its
keys, a string its characters (as 1-character strings); other values raise
`TypeError`. -/
def pyIter : JSON → Except PyErr (List JSON)
  | .arr xs => .ok xs
  | .obj fs => .ok (fs.map (fun kv => JSON.str kv.1))
  | .str s => .ok (s.map (fun c => JSON.str [c]))
  | _ => .error .schema

/-- One step of the dict comprehension: evaluate `str(e["code"])`, then
`e["message"]`, then assign into the dict. -/
def buildStep (m : List (Str × JSON)) (e : JSON) : Except PyErr (List (Str × JSON)) := do
  let c ← getItem e codeKey
  let msg ← getItem e messageKey
  pure (dictInsert m (pyStr c) msg)

/-- Left-to-right evaluation of the dict comprehension from accumulator `m`. -/
def buildCodesAux : List (Str × JSON) → List JSON → Except PyErr (List (Str × JSON))
  | m, [] => .ok m
  | m, e :: rest =>
    match buildStep m e with
    | .ok m2 => buildCodesAux m2 rest
    | .error err => .error err

/-- The dict comprehension
`str(e["code"]) maps-to e["message"] for e in (parsed body)`. -/
def buildCodes (elems : List JSON) : Except PyErr (List (Str × JSON)) :=
  buildCodesAux [] elems

/-- Lines 6-7 of the script applied to a completed response body: parse it,
iterate it, build `codes`, and serialize; the value is the text passed to
`f.write`. -/
def transform (body : Str) : Except PyErr Str :=
  match loads body with
  | none => .error .parse
  | some j =>
    match pyIter j with
    | .error e => .error e
    | .ok elems =>
      match buildCodes elems with
      | .error e => .error e
      | .ok codes => .ok (dumps (.obj codes))

/-- Outcome of `requests.get`: either a connection-level failure (the call
raises) or a completed response carrying a status code and a body. -/
inductive NetOutcome where
  | failure
  | response (status : Nat) (body : Str)

/-- The computation of the script on a network outcome, yielding the text
written to the output file. The status code of a completed response is not
consulted anywhere (the script never calls `raise_for_status`). -/
def run : NetOutcome → Except PyErr Str
  | .failure => .error .network
  | .response _ body => transform body

/-- Externally visible effects of the script, in program order. -/
inductive Event where
  | httpGet
  | openTruncate
  | write (s : Str)

/-- Trace and result of one execution, mirroring the line order of the
script: the GET on line 6, then - only if lines 6-7 raised nothing -
`open(..., "w")` (which truncates) and `f.write` on lines 8-9. -/
def script (net : NetOutcome) : List Event × Except PyErr Unit :=
  match run net with
  | .ok out => ([.httpGet, .openTruncate, .write out], .ok ())
  | .error e => ([.httpGet], .error e)

/-- Effect of a trace on the output file. `writable` models whether the
output path can be opened for writing; a failing `open` raises before
touching the file. -/
def applyEvents (writable : Bool) : Option Str → List Event → Except PyErr (Option Str)
  | f, [] => .ok f
  | f, .httpGet :: tr => applyEvents writable f tr
  | f, .openTruncate :: tr => if writable then applyEvents writable (some []) tr else .error .io
  | f, .write s :: tr => applyEvents writable (some (f.getD [] ++ s)) tr

/-- Environment of one execution: the network outcome, writability of the
output path, and the prior content of the output file (if it exists). -/
structure World where
  net : NetOutcome
  writable : Bool
  file : Option Str

/-- Result and final output-file content of one execution. -/
def runWorld (w : World) : Except PyErr Unit × Option Str :=
  match applyEvents w.writable w.file (script w.net).1 with
  | .ok f2 => ((script w.net).2, f2)
  | .error e => (.error e, w.file)

/-- Process exit code: 0 on success, 1 for an uncaught Python exception. -/
def exitCode (w : World) : Nat :=
  match (runWorld w).1 with
  | .ok _ => 0
  | .error _ => 1

/-- Guard on the text following a serialized integer: nothing, or a character
that can extend neither the digit run nor a float literal. Holds at every
position where `dumps` places an integer. -/
def numBoundary : Str → Bool
  | [] => true
  | c :: _ => !(isDig c) && !(decide (c = '.')) && !(decide (c = 'e')) && !(decide (c = 'E'))

mutual

/-- Fuel bound: `parseValue` succeeds on `dumps v ++ rest` whenever its fuel
is at least `sizeJ v`. -/
def sizeJ : JSON → Nat
  | .null => 1
  | .bool _ => 1
  | .num _ => 1
  | .str s => s.length + 2
  | .arr xs => sizeElems xs + 1
  | .obj fs => sizeFields fs + 1

/-- Fuel bound for `parseElemsLoop`. -/
def sizeElems : List JSON → Nat
  | [] => 0
  | x :: xs => sizeJ x + sizeElems xs + 1

/-- Fuel bound for `parseFieldsLoop`. -/
def sizeFields : List (Str × JSON) → Nat
  | [] => 0
  | (k, v) :: fs => k.length + sizeJ v + sizeFields fs + 3

end

mutual

/-- Well-formedness of a JSON value as produced by `json.loads`: every object
has pairwise distinct keys (`loads` collapses duplicates by dict assignment). -/
def wfJ : JSON → Bool
  | .null => true
  | .bool _ => true
  | .num _ => true
  | .str _ => true
  | .arr xs => wfElems xs
  | .obj fs => decide ((fs.map Prod.fst).Nodup) && wfFields fs

/-- Well-formedness of every element of a list. -/
def wfElems : List JSON → Bool
  | [] => true
  | x :: xs => wfJ x && wfElems xs

/-- Well-formedness of every value of a field list. -/
def wfFields : List (Str × JSON) → Bool
  | [] => true
  | (_, v) :: fs => wfJ v && wfFields fs

end

/-- Lookup in the assoc-list model of a Python dict. -/
def dictLookup (m : List (Str × JSON)) (k : Str) : Option JSON :=
  (m.find? (fun kv => decide (kv.1 = k))).map Prod.snd

/-- Coerced key of a source record, when present: `str(e["code"])`. -/
def recKey (e : JSON) : Option Str :=
  match getItem e codeKey with
  | .ok c => some (pyStr c)
  | .error _ => none

/-- Message of a source record, when present: `e["message"]`. -/
def recMsg (e : JSON) : Option JSON :=
  match getItem e messageKey with
  | .ok v => some v
  | .error _ => none

/-- Spec-side description of one output entry: the record's `code` coerced to
a string paired with its `message` (defaulting to `null` on a missing field,
which the hypotheses of the theorems below exclude). -/
def entryOf (e : JSON) : Str × JSON :=
  ((recKey e).getD [], (recMsg e).getD .null)

/-- Spec-side description of the output value at key `k`: the `message` of
the last source record whose coerced `code` equals `k`. -/
def lastMessage : List JSON → Str → Option JSON
  | [], _ => none
  | e :: rest, k =>
    match lastMessage rest k with
    | some v => some v
    | none => if recKey e = some k then recMsg e else none

/-- Spec-side last-write-wins on a raw key-value list: the value of the last
pair carrying key `k`. -/
def lastVal : List (Str × JSON) → Str → Option JSON
  | [], _ => none
  | (k0, v0) :: rest, k =>
    match lastVal rest k with
    | some v => some v
    | none => if k0 = k then some v0 else none

/-- Presence of a field: exactly when the subscript `e[k]` succeeds. -/
def hasField (e : JSON) (k : Str) : Bool :=
  match e with
  | .obj fs => (fs.find? (fun kv => decide (kv.1 = k))).isSome
  | _ => false

/-- Spec-side description of the output key order: first occurrences of the
keys `ks`, those already in `seen` dropped. -/
def newKeys (seen : List Str) : List Str → List Str
  | [] => []
  | k :: ks => if k ∈ seen then newKeys seen ks else k :: newKeys (k :: seen) ks

/-- Spec-side description of insertion order: distinct keys in order of first
occurrence. -/
def insertionOrder (ks : List Str) : List Str := newKeys [] ks

/-- Body of the duplicate-code scenario of the spec. -/
def dupBody : Str :=
  chars "[\x7b\"code\": 1, \"message\": \"first\"\x7d, \x7b\"code\": 1, \"message\": \"second\"\x7d]"

/-- Expected output of the duplicate-code scenario. -/
def dupOut : Str := chars "\x7b\"1\": \"second\"\x7d"

/-- Body of the two-record scenario of the spec (one numeric `code`, one
string `code`; the second message contains apostrophes). -/
def scenarioBody : Str :=
  chars "[\x7b\"code\": 11200, \"message\": \"HTTP retrieval failure\"\x7d, \x7b\"code\": \"21211\", \"message\": \"Invalid " ++
  [squote] ++ chars "To" ++ [squote] ++ chars " Phone Number\"\x7d]"

/-- Expected output of the two-record scenario. -/
def scenarioOut : Str :=
  chars "\x7b\"11200\": \"HTTP retrieval failure\", \"21211\": \"Invalid " ++
  [squote] ++ chars "To" ++ [squote] ++ chars " Phone Number\"\x7d"

/-! Character-level facts. -/

theorem char_eq_iff {c d : Char} : c = d ↔ c.toNat = d.toNat := by
  constructor
  · rintro rfl; rfl
  · intro h
    have := Char.ofNat_toNat c
    rw [h, Char.ofNat_toNat] at this
    exact this.symm

theorem char_toNat_lt (c : Char) : c.toNat < 1114112 := by
  have h := c.valid
  unfold UInt32.isValidChar Nat.isValidChar at h
  rcases h with h | ⟨_, h2⟩ <;> simp [Char.toNat] <;> omega

theorem char_not_surrogate (c : Char) : c.toNat < 55296 ∨ 57344 ≤ c.toNat := by
  have h := c.valid
  unfold UInt32.isValidChar Nat.isValidChar at h
  rcases h with h | ⟨h1, _⟩ <;> simp [Char.toNat] <;> omega

theorem isDig_iff {c : Char} : isDig c = true ↔ 48 ≤ c.toNat ∧ c.toNat ≤ 57 := by
  simp [isDig]

theorem isWs_iff {c : Char} :
    isWs c = true ↔ c.toNat = 32 ∨ c.toNat = 9 ∨ c.toNat = 10 ∨ c.toNat = 13 := by
  simp [isWs]; tauto

theorem isDig_not_ws {c : Char} (h : isDig c = true) : isWs c = false := by
  rw [isDig_iff] at h
  cases hw : isWs c
  · rfl
  · rw [isWs_iff] at hw; omega

/-! Whitespace skipping. -/

theorem skipWs_cons_ws {c : Char} {s : Str} (h : isWs c = true) :
    skipWs (c :: s) = skipWs s := by
  simp [skipWs, h]

theorem skipWs_cons_not {c : Char} {s : Str} (h : isWs c = false) :
    skipWs (c :: s) = c :: s := by
  simp [skipWs, h]

theorem skipWs_skipWs (s : Str) : skipWs (skipWs s) = skipWs s := by
  induction s with
  | nil => rfl
  | cons c cs ih =>
    by_cases h : isWs c = true
    · rw [skipWs_cons_ws h, ih]
    · rw [skipWs_cons_not (by simpa using h), skipWs_cons_not (by simpa using h)]

/-! Decimal rendering: digits, head, and the value recovered by the
left-to-right accumulation the number scanner performs. -/

theorem digitVal_digitChar : ∀ d, d < 10 → digitVal (Nat.digitChar d) = d := by decide

theorem isDig_digitChar : ∀ d, d < 10 → isDig (Nat.digitChar d) = true := by decide

theorem digitChar_ne_zero : ∀ d, d < 10 → d ≠ 0 → Nat.digitChar d ≠ '0' := by decide

theorem natDecAux_ne_nil (f n : Nat) : natDecAux f n ≠ [] := by
  cases f with
  | zero => simp [natDecAux]
  | succ f =>
    by_cases h : n < 10 <;> simp [natDecAux, h]

theorem natDecAux_all_dig (f : Nat) : ∀ n, n ≤ f → ∀ c ∈ natDecAux f n, isDig c = true := by
  induction f with
  | zero =>
    intro n hn c hc
    interval_cases n
    simp [natDecAux] at hc
    subst hc
    decide
  | succ f ih =>
    intro n hn c hc
    by_cases h : n < 10
    · simp [natDecAux, h] at hc
      subst hc
      exact isDig_digitChar n h
    · simp only [natDecAux, if_neg h, List.mem_append, List.mem_singleton] at hc
      rcases hc with hc | hc
      · exact ih (n / 10) (by omega) c hc
      · subst hc
        exact isDig_digitChar (n % 10) (by omega)

theorem natDecAux_foldl (f : Nat) :
    ∀ n a, n ≤ f →
      List.foldl (fun acc d => acc * 10 + digitVal d) a (natDecAux f n) =
        a * 10 ^ (natDecAux f n).length + n := by
  induction f with
  | zero =>
    intro n a hn
    interval_cases n
    simp [natDecAux]
    decide
  | succ f ih =>
    intro n a hn
    by_cases h : n < 10
    · simp [natDecAux, h, digitVal_digitChar n h]
    · have hrec : n / 10 ≤ f := by omega
      simp only [natDecAux, if_neg h, List.foldl_append, List.length_append,
        List.foldl_cons, List.foldl_nil, List.length_cons, List.length_nil]
      rw [ih (n / 10) a hrec]
      rw [digitVal_digitChar (n % 10) (by omega)]
      have hdm : n / 10 * 10 + n % 10 = n := by omega
      rw [pow_succ]
      generalize (10 : ℕ) ^ (natDecAux f (n / 10)).length = P
      have key : (a * P + n / 10) * 10 + n % 10 = a * (P * 10) + (n / 10 * 10 + n % 10) := by
        ring
      rw [key, hdm]

/-! Hex escapes. -/

theorem hexVal_digitChar : ∀ d, d < 16 → hexVal (Nat.digitChar d) = some d := by decide

theorem parseHex4_toHex4 {n : Nat} (h : n < 65536) (rest : Str) :
    parseHex4 (toHex4 n ++ rest) = some (n, rest) := by
  have h1 : n / 4096 % 16 < 16 := Nat.mod_lt _ (by norm_num)
  have h2 : n / 256 % 16 < 16 := Nat.mod_lt _ (by norm_num)
  have h3 : n / 16 % 16 < 16 := Nat.mod_lt _ (by norm_num)
  have h4 : n % 16 < 16 := Nat.mod_lt _ (by norm_num)
  simp only [toHex4, List.cons_append, List.nil_append, parseHex4]
  rw [hexVal_digitChar _ h1, hexVal_digitChar _ h2, hexVal_digitChar _ h3, hexVal_digitChar _ h4]
  simp only [Option.some.injEq, Prod.mk.injEq]
  exact ⟨by omega, trivial⟩

/-! Single steps of the string scanner, one per input shape. -/

theorem parseStrBody_close (f : Nat) (t : Str) : parseStrBody (f + 1) ('"' :: t) = some ([], t) :=
  rfl

theorem parseStrBody_escQuote (f : Nat) (t : Str) :
    parseStrBody (f + 1) ('\\' :: '"' :: t) =
      match parseStrBody f t with
      | some (s, r) => some ('"' :: s, r)
      | none => none := rfl

theorem parseStrBody_escBack (f : Nat) (t : Str) :
    parseStrBody (f + 1) ('\\' :: '\\' :: t) =
      match parseStrBody f t with
      | some (s, r) => some ('\\' :: s, r)
      | none => none := rfl

theorem parseStrBody_escB (f : Nat) (t : Str) :
    parseStrBody (f + 1) ('\\' :: 'b' :: t) =
      match parseStrBody f t with
      | some (s, r) => some (Char.ofNat 8 :: s, r)
      | none => none := rfl

theorem parseStrBody_escT (f : Nat) (t : Str) :
    parseStrBody (f + 1) ('\\' :: 't' :: t) =
      match parseStrBody f t with
      | some (s, r) => some (Char.ofNat 9 :: s, r)
      | none => none := rfl

theorem parseStrBody_escN (f : Nat) (t : Str) :
    parseStrBody (f + 1) ('\\' :: 'n' :: t) =
      match parseStrBody f t with
      | some (s, r) => some (Char.ofNat 10 :: s, r)
      | none => none := rfl

theorem parseStrBody_escF (f : Nat) (t : Str) :
    parseStrBody (f + 1) ('\\' :: 'f' :: t) =
      match parseStrBody f t with
      | some (s, r) => some (Char.ofNat 12 :: s, r)
      | none => none := rfl

theorem parseStrBody_escR (f : Nat) (t : Str) :
    parseStrBody (f + 1) ('\\' :: 'r' :: t) =
      match parseStrBody f t with
      | some (s, r) => some (Char.ofNat 13 :: s, r)
      | none => none := rfl

theorem parseStrBody_plain (f : Nat) (c : Char) (t : Str) (h1 : c ≠ '"') (h2 : c ≠ '\\')
    (h3 : 32 ≤ c.toNat) :
    parseStrBody (f + 1) (c :: t) =
      match parseStrBody f t with
      | some (s, r) => some (c :: s, r)
      | none => none := by
  simp only [parseStrBody, if_neg h1, if_neg h2, if_neg (by omega : ¬c.toNat < 32)]

theorem parseStrBody_u_bmp (f : Nat) (n : Nat) (t : Str) (hn : n < 65536)
    (hns : n < 55296 ∨ 57344 ≤ n) :
    parseStrBody (f + 1) ('\\' :: 'u' :: (toHex4 n ++ t)) =
      match parseStrBody f t with
      | some (s, r) => some (Char.ofNat n :: s, r)
      | none => none := by
  simp [parseStrBody, parseHex4_toHex4 hn]
  rw [if_neg (by omega : ¬(55296 ≤ n ∧ n < 56320)), if_neg (by omega : ¬(56320 ≤ n ∧ n < 57344))]

theorem parseStrBody_u_pair (f : Nat) (n m : Nat) (t : Str) (hn : n < 65536) (hm : m < 65536)
    (hhi : 55296 ≤ n ∧ n < 56320) (hlo : 56320 ≤ m ∧ m < 57344) :
    parseStrBody (f + 1) ('\\' :: 'u' :: (toHex4 n ++ ('\\' :: 'u' :: (toHex4 m ++ t)))) =
      match parseStrBody f t with
      | some (s, r) => some (Char.ofNat (65536 + (n - 55296) * 1024 + (m - 56320)) :: s, r)
      | none => none := by
  simp [parseStrBody, parseHex4_toHex4 hn, parseHex4_toHex4 hm]
  rw [if_pos hhi, if_pos hlo]

theorem natDecAux_head_ne_zero (f : Nat) :
    ∀ n c t, n ≤ f → 1 ≤ n → natDecAux f n = c :: t → c ≠ '0' := by
  induction f with
  | zero => omega
  | succ f ih =>
    intro n c t hn h1 heq
    by_cases h : n < 10
    · simp [natDecAux, h] at heq
      exact heq.1 ▸ digitChar_ne_zero n h (by omega)
    · simp only [natDecAux, if_neg h] at heq
      obtain ⟨c2, t2, h2⟩ : ∃ c2 t2, natDecAux f (n / 10) = c2 :: t2 := by
        cases hx : natDecAux f (n / 10) with
        | nil => exact absurd hx (natDecAux_ne_nil f (n / 10))
        | cons a b => exact ⟨a, b, rfl⟩
      rw [h2] at heq
      simp at heq
      exact heq.1 ▸ ih (n / 10) c2 t2 (by omega) (by omega) h2

theorem parseStrBody_escape (s : Str) : ∀ fuel rest, s.length + 1 ≤ fuel →
    parseStrBody fuel (escapeStr s ++ '"' :: rest) = some (s, rest) := by
  induction s with
  | nil =>
    intro fuel rest h
    obtain ⟨f, rfl⟩ : ∃ f, fuel = f + 1 := ⟨fuel - 1, by omega⟩
    simpa [escapeStr] using parseStrBody_close f rest
  | cons c cs ih =>
    intro fuel rest h
    obtain ⟨f, rfl⟩ : ∃ f, fuel = f + 1 := ⟨fuel - 1, by omega⟩
    have hf : cs.length + 1 ≤ f := by simp only [List.length_cons] at h; omega
    have hrec := ih f rest hf
    rw [show escapeStr (c :: cs) = escapeChar c ++ escapeStr cs from rfl, List.append_assoc]
    by_cases hq : c = '"'
    · subst hq
      rw [show escapeChar '"' = ['\\', '"'] from rfl]
      simp only [List.cons_append, List.nil_append]
      rw [parseStrBody_escQuote, hrec]
    · by_cases hbs : c = '\\'
      · subst hbs
        rw [show escapeChar '\\' = ['\\', '\\'] from rfl]
        simp only [List.cons_append, List.nil_append]
        rw [parseStrBody_escBack, hrec]
      · by_cases h8 : c.toNat = 8
        · have hc : Char.ofNat 8 = c := by rw [← h8, Char.ofNat_toNat]
          simp only [escapeChar, if_neg hq, if_neg hbs, if_pos h8]
          simp only [List.cons_append, List.nil_append]
          rw [parseStrBody_escB, hrec, hc]
        · by_cases h9 : c.toNat = 9
          · have hc : Char.ofNat 9 = c := by rw [← h9, Char.ofNat_toNat]
            simp only [escapeChar, if_neg hq, if_neg hbs, if_neg h8, if_pos h9]
            simp only [List.cons_append, List.nil_append]
            rw [parseStrBody_escT, hrec, hc]
          · by_cases h10 : c.toNat = 10
            · have hc : Char.ofNat 10 = c := by rw [← h10, Char.ofNat_toNat]
              simp only [escapeChar, if_neg hq, if_neg hbs, if_neg h8, if_neg h9, if_pos h10]
              simp only [List.cons_append, List.nil_append]
              rw [parseStrBody_escN, hrec, hc]
            · by_cases h12 : c.toNat = 12
              · have hc : Char.ofNat 12 = c := by rw [← h12, Char.ofNat_toNat]
                simp only [escapeChar, if_neg hq, if_neg hbs, if_neg h8, if_neg h9, if_neg h10,
                  if_pos h12]
                simp only [List.cons_append, List.nil_append]
                rw [parseStrBody_escF, hrec, hc]
              · by_cases h13 : c.toNat = 13
                · have hc : Char.ofNat 13 = c := by rw [← h13, Char.ofNat_toNat]
                  simp only [escapeChar, if_neg hq, if_neg hbs, if_neg h8, if_neg h9, if_neg h10,
                    if_neg h12, if_pos h13]
                  simp only [List.cons_append, List.nil_append]
                  rw [parseStrBody_escR, hrec, hc]
                · by_cases hun : c.toNat < 32 ∨ 126 < c.toNat
                  · by_cases hbmp : c.toNat ≤ 65535
                    · have hc : Char.ofNat c.toNat = c := Char.ofNat_toNat c
                      simp only [escapeChar, if_neg hq, if_neg hbs, if_neg h8, if_neg h9,
                        if_neg h10, if_neg h12, if_neg h13, if_pos hun, if_pos hbmp]
                      simp only [List.cons_append, List.append_assoc]
                      rw [parseStrBody_u_bmp f c.toNat _ (by omega) (char_not_surrogate c),
                        hrec, hc]
                    · have hlt := char_toNat_lt c
                      simp only [escapeChar, if_neg hq, if_neg hbs, if_neg h8, if_neg h9,
                        if_neg h10, if_neg h12, if_neg h13, if_pos hun, if_neg hbmp]
                      simp only [List.cons_append, List.append_assoc, List.nil_append]
                      rw [parseStrBody_u_pair f (55296 + (c.toNat - 65536) / 1024)
                        (56320 + (c.toNat - 65536) % 1024) _ (by omega) (by omega)
                        (by omega) (by omega)]
                      have harith : 65536 + (55296 + (c.toNat - 65536) / 1024 - 55296) * 1024 +
                          (56320 + (c.toNat - 65536) % 1024 - 56320) = c.toNat := by omega
                      rw [harith, Char.ofNat_toNat, hrec]
                  · have hr : 32 ≤ c.toNat ∧ c.toNat ≤ 126 := by omega
                    simp only [escapeChar, if_neg hq, if_neg hbs, if_neg h8, if_neg h9,
                      if_neg h10, if_neg h12, if_neg h13, if_neg hun]
                    simp only [List.cons_append, List.nil_append]
                    rw [parseStrBody_plain f c _ hq hbs hr.1, hrec]

theorem span_loop_digits (p : Char → Bool) (xs : Str) :
    ∀ acc ys, (∀ c ∈ xs, p c = true) → (∀ c, ys.head? = some c → p c = false) →
      List.span.loop p (xs ++ ys) acc = (acc.reverse ++ xs, ys) := by
  induction xs with
  | nil =>
    intro acc ys _ hy
    cases ys with
    | nil => simp [List.span.loop]
    | cons c t =>
      simp [List.span.loop, hy c rfl]
  | cons x xs ih =>
    intro acc ys hx hy
    simp only [List.cons_append, List.span.loop, hx x (by simp), List.append_eq]
    rw [ih (x :: acc) ys (fun c hc => hx c (by simp [hc])) hy]
    simp

theorem span_digits (p : Char → Bool) (xs ys : Str) (hx : ∀ c ∈ xs, p c = true)
    (hy : ∀ c, ys.head? = some c → p c = false) :
    List.span p (xs ++ ys) = (xs, ys) := by
  unfold List.span
  rw [span_loop_digits p xs [] ys hx hy]
  simp

theorem numBoundary_head {c : Char} {t : Str} (h : numBoundary (c :: t) = true) :
    isDig c = false ∧ c ≠ '.' ∧ c ≠ 'e' ∧ c ≠ 'E' := by
  simp [numBoundary] at h
  tauto

theorem numBoundary_floatStart {s : Str} (h : numBoundary s = true) : isFloatStart s = false := by
  cases s with
  | nil => rfl
  | cons c t =>
    obtain ⟨_, h2, h3, h4⟩ := numBoundary_head h
    simp [isFloatStart, h2, h3, h4]

theorem parsePosNum_natDec (n : Nat) (rest : Str) (hb : numBoundary rest = true) :
    parsePosNum (natDec n ++ rest) = some (n, rest) := by
  by_cases h0 : n = 0
  · subst h0
    show parsePosNum ('0' :: rest) = some (0, rest)
    simp [parsePosNum, numBoundary_floatStart hb]
  · obtain ⟨c, t, hct⟩ : ∃ c t, natDec n = c :: t := by
      cases hx : natDec n with
      | nil => exact absurd hx (natDecAux_ne_nil n n)
      | cons a b => exact ⟨a, b, rfl⟩
    have hdig : ∀ d ∈ natDec n, isDig d = true := natDecAux_all_dig n n le_rfl
    have hcd : isDig c = true := hdig c (by rw [hct]; simp)
    have hcz : c ≠ '0' := natDecAux_head_ne_zero n n c t le_rfl (by omega) hct
    have htd : ∀ d ∈ t, isDig d = true := fun d hd => hdig d (by rw [hct]; simp [hd])
    have hrest : ∀ d, rest.head? = some d → isDig d = false := by
      intro d hd
      cases rest with
      | nil => simp at hd
      | cons r rt =>
        simp at hd
        subst hd
        exact (numBoundary_head hb).1
    have hfold : t.foldl (fun a d => a * 10 + digitVal d) (digitVal c) = n := by
      have hh := natDecAux_foldl n n 0 le_rfl
      rw [show natDecAux n n = natDec n from rfl, hct] at hh
      simpa using hh
    rw [hct]
    simp only [List.cons_append, parsePosNum, if_neg hcz, hcd, if_pos trivial]
    simp only [span_digits isDig t rest htd hrest]
    rw [numBoundary_floatStart hb]
    simp [hfold]

theorem natDec_head_dig (n : Nat) : ∃ c t, natDec n = c :: t ∧ isDig c = true := by
  obtain ⟨c, t, hct⟩ : ∃ c t, natDec n = c :: t := by
    cases hx : natDec n with
    | nil => exact absurd hx (natDecAux_ne_nil n n)
    | cons a b => exact ⟨a, b, rfl⟩
  refine ⟨c, t, hct, natDecAux_all_dig n n le_rfl c ?_⟩
  rw [show natDecAux n n = natDec n from rfl, hct]
  simp

theorem parseNum_intDec (n : Int) (rest : Str) (hb : numBoundary rest = true) :
    parseNum (intDec n ++ rest) = some (.num n, rest) := by
  by_cases hneg : n < 0
  · rw [show intDec n = '-' :: natDec n.natAbs from by simp [intDec, hneg]]
    simp only [List.cons_append, parseNum, if_pos rfl, parsePosNum_natDec n.natAbs rest hb]
    have hv : -((n.natAbs : Nat) : Int) = n := by omega
    rw [hv]
    simp
  · rw [show intDec n = natDec n.natAbs from by simp [intDec, hneg]]
    obtain ⟨c, t, hct, hcd⟩ := natDec_head_dig n.natAbs
    have hcm : c ≠ '-' := by
      intro h
      rw [isDig_iff] at hcd
      rw [char_eq_iff] at h
      revert h
      show ¬(c.toNat = Char.toNat (Char.ofNat 45))
      have h45 : Char.toNat (Char.ofNat 45) = 45 := rfl
      omega
    rw [hct]
    simp only [List.cons_append, parseNum, if_neg hcm]
    rw [show (c :: (t ++ rest)) = (c :: t) ++ rest from rfl, ← hct,
      parsePosNum_natDec n.natAbs rest hb]
    have hv : ((n.natAbs : Nat) : Int) = n := by omega
    show (some (JSON.num ((n.natAbs : Nat) : Int), rest) : Option (JSON × Str)) =
      some (JSON.num n, rest)
    rw [hv]

theorem isWs_false_of_toNat {c : Char} (h32 : c.toNat ≠ 32) (h9 : c.toNat ≠ 9)
    (h10 : c.toNat ≠ 10) (h13 : c.toNat ≠ 13) : isWs c = false := by
  simp [isWs]
  omega

theorem dumps_head_facts (v : JSON) :
    ∃ c t, dumps v = c :: t ∧ isWs c = false ∧ c ≠ ']' := by
  cases v with
  | null => exact ⟨'n', chars "ull", rfl, by decide, by decide⟩
  | bool b => cases b with
    | true => exact ⟨'t', chars "rue", rfl, by decide, by decide⟩
    | false => exact ⟨'f', chars "alse", rfl, by decide, by decide⟩
  | num n =>
    by_cases hneg : n < 0
    · refine ⟨'-', natDec n.natAbs, ?_, by decide, by decide⟩
      simp [dumps, intDec, hneg]
    · obtain ⟨c, t, hct, hcd⟩ := natDec_head_dig n.natAbs
      refine ⟨c, t, ?_, isDig_not_ws hcd, ?_⟩
      · simp [dumps, intDec, hneg, hct]
      · rw [isDig_iff] at hcd
        intro h
        rw [char_eq_iff] at h
        have h93 : Char.toNat ']' = 93 := rfl
        omega
  | str s => exact ⟨'"', escapeStr s ++ ['"'], rfl, by decide, by decide⟩
  | arr xs => exact ⟨'[', dumpsElems xs ++ [']'], rfl, by decide, by decide⟩
  | obj fs => exact ⟨lbrace, dumpsFields fs ++ [rbrace], rfl, by decide, by decide⟩

theorem skipWs_dumps_append (v : JSON) (r : Str) : skipWs (dumps v ++ r) = dumps v ++ r := by
  obtain ⟨c, t, hct, hws, _⟩ := dumps_head_facts v
  rw [hct]
  simp only [List.cons_append]
  exact skipWs_cons_not hws

theorem parseValue_cons_ws (fuel : Nat) (c : Char) (s : Str) (h : isWs c = true) :
    parseValue fuel (c :: s) = parseValue fuel s := by
  cases fuel with
  | zero => rfl
  | succ f => simp only [parseValue, skipWs_cons_ws h]

theorem numBoundary_elemsRest (xs : List JSON) (rest : Str) :
    numBoundary (dumpsElemsRest xs ++ ']' :: rest) = true := by
  cases xs with
  | nil => rfl
  | cons y ys => rfl

theorem numBoundary_fieldsRest (fs : List (Str × JSON)) (rest : Str) :
    numBoundary (dumpsFieldsRest fs ++ rbrace :: rest) = true := by
  cases fs with
  | nil => rfl
  | cons kv ks => rfl

theorem parseValue_nil (f : Nat) (rest : Str) :
    parseValue (f + 1) (chars "null" ++ rest) = some (.null, rest) := rfl

theorem parseValue_true (f : Nat) (rest : Str) :
    parseValue (f + 1) (chars "true" ++ rest) = some (.bool true, rest) := rfl

theorem parseValue_false (f : Nat) (rest : Str) :
    parseValue (f + 1) (chars "false" ++ rest) = some (.bool false, rest) := rfl

theorem parseValue_quote (f : Nat) (cs : Str) :
    parseValue (f + 1) ('"' :: cs) =
      match parseStrBody f cs with
      | some (s2, rest) => some (.str s2, rest)
      | none => none := rfl

theorem parseValue_arrNil (f : Nat) (rest : Str) :
    parseValue (f + 1) ('[' :: ']' :: rest) = some (.arr [], rest) := rfl

theorem parseValue_objNil (f : Nat) (rest : Str) :
    parseValue (f + 1) (lbrace :: rbrace :: rest) = some (.obj [], rest) := rfl

theorem parseValue_lbracket (f : Nat) (cs : Str) :
    parseValue (f + 1) ('[' :: cs) =
      match skipWs cs with
      | ']' :: rest => some (.arr [], rest)
      | s2 =>
        match parseElemsLoop f s2 with
        | some (xs, rest) => some (.arr xs, rest)
        | none => none := rfl

theorem parseValue_lbrace (f : Nat) (cs : Str) :
    parseValue (f + 1) (lbrace :: cs) =
      match skipWs cs with
      | [] => none
      | c2 :: rest =>
        if c2 = rbrace then some (.obj [], rest)
        else
          match parseFieldsLoop f (c2 :: rest) with
          | some (kvs, rest2) => some (.obj (pyDict kvs), rest2)
          | none => none := rfl

theorem parseElemsLoop_succ (f : Nat) (s : Str) :
    parseElemsLoop (f + 1) s =
      match parseValue f s with
      | none => none
      | some (v, rest) =>
        match skipWs rest with
        | ',' :: rest2 =>
          match parseElemsLoop f rest2 with
          | some (vs, rest3) => some (v :: vs, rest3)
          | none => none
        | ']' :: rest2 => some ([v], rest2)
        | _ => none := rfl

theorem parseFieldsLoop_quote (f : Nat) (cs : Str) :
    parseFieldsLoop (f + 1) ('"' :: cs) =
      match parseStrBody f cs with
      | some (k, rest) =>
        match skipWs rest with
        | ':' :: rest2 =>
          match parseValue f rest2 with
          | some (v, rest3) =>
            match skipWs rest3 with
            | ',' :: rest4 =>
              match parseFieldsLoop f (skipWs rest4) with
              | some (kvs, rest5) => some ((k, v) :: kvs, rest5)
              | none => none
            | c3 :: rest4 => if c3 = rbrace then some ([(k, v)], rest4) else none
            | [] => none
          | none => none
        | _ => none
      | none => none := rfl

theorem parseValue_skipWs (fuel : Nat) (s : Str) :
    parseValue fuel (skipWs s) = parseValue fuel s := by
  cases fuel with
  | zero => rfl
  | succ f => simp only [parseValue, skipWs_skipWs]

theorem parseValue_num_head (f : Nat) (c : Char) (cs : Str)
    (h : c = '-' ∨ isDig c = true) :
    parseValue (f + 1) (c :: cs) = parseNum (c :: cs) := by
  have hn : c.toNat = 45 ∨ (48 ≤ c.toNat ∧ c.toNat ≤ 57) := by
    rcases h with h | h
    · left; rw [h]; rfl
    · right; exact isDig_iff.mp h
  have hws : isWs c = false := isWs_false_of_toNat (by omega) (by omega) (by omega) (by omega)
  have hne : ∀ d : Char, d.toNat < 45 ∨ (45 < d.toNat ∧ d.toNat < 48) ∨ 57 < d.toNat → c ≠ d := by
    intro d hd heq
    rw [char_eq_iff] at heq
    omega
  simp only [parseValue, skipWs_cons_not hws]
  rw [if_neg (hne 'n' (by decide)), if_neg (hne 't' (by decide)),
    if_neg (hne 'f' (by decide)), if_neg (hne '"' (by decide)),
    if_neg (hne '[' (by decide)), if_neg (hne lbrace (by decide)),
    if_pos h]

theorem sizeJ_pos (v : JSON) : 1 ≤ sizeJ v := by
  cases v <;> simp [sizeJ]

theorem intDec_head (n : Int) :
    ∃ c t, intDec n = c :: t ∧ (c = '-' ∨ isDig c = true) := by
  by_cases hneg : n < 0
  · exact ⟨'-', natDec n.natAbs, by simp [intDec, hneg], Or.inl rfl⟩
  · obtain ⟨c, t, hct, hcd⟩ := natDec_head_dig n.natAbs
    exact ⟨c, t, by simp [intDec, hneg, hct], Or.inr hcd⟩

theorem containsKey_eq_false_iff (m : List (Str × JSON)) (k : Str) :
    containsKey m k = false ↔ k ∉ m.map Prod.fst := by
  constructor
  · intro h hmem
    obtain ⟨kv, hkv, hk⟩ := List.mem_map.mp hmem
    have hc : containsKey m k = true := List.any_eq_true.mpr ⟨kv, hkv, by simp [hk]⟩
    rw [h] at hc
    cases hc
  · intro h
    cases hc : containsKey m k
    · rfl
    · exfalso
      obtain ⟨kv, hkv, hk⟩ := List.any_eq_true.mp hc
      exact h (List.mem_map.mpr ⟨kv, hkv, by simpa using hk⟩)

theorem foldl_dictInsert_nodup :
    ∀ (fs m : List (Str × JSON)), (((m ++ fs).map Prod.fst).Nodup) →
      fs.foldl (fun m2 kv => dictInsert m2 kv.1 kv.2) m = m ++ fs := by
  intro fs
  induction fs with
  | nil => intro m _; simp
  | cons kv fs ih =>
    intro m hnd
    obtain ⟨k, v⟩ := kv
    have hk : k ∉ m.map Prod.fst := by
      simp only [List.map_append, List.nodup_append] at hnd
      intro hmem
      exact hnd.2.2 hmem (by simp)
    have hins : dictInsert m k v = m ++ [(k, v)] := by
      rw [dictInsert, if_neg]
      rw [Bool.not_eq_true, containsKey_eq_false_iff]
      exact hk
    simp only [List.foldl_cons, hins]
    rw [ih (m ++ [(k, v)]) (by simpa using hnd)]
    simp

theorem pyDict_self (fs : List (Str × JSON)) (h : (fs.map Prod.fst).Nodup) : pyDict fs = fs := by
  have h2 := foldl_dictInsert_nodup fs [] (by simpa using h)
  simpa [pyDict] using h2

theorem dumps_parse_all : ∀ fuel : Nat,
    (∀ v rest, wfJ v = true → sizeJ v ≤ fuel → numBoundary rest = true →
      parseValue fuel (dumps v ++ rest) = some (v, rest)) ∧
    (∀ x xs rest s, wfJ x = true → wfElems xs = true → sizeElems (x :: xs) ≤ fuel →
      skipWs s = dumps x ++ (dumpsElemsRest xs ++ (']' :: rest)) →
      parseElemsLoop fuel s = some (x :: xs, rest)) ∧
    (∀ k v fs rest, wfJ v = true → wfFields fs = true → sizeFields ((k, v) :: fs) ≤ fuel →
      parseFieldsLoop fuel
        ('"' :: (escapeStr k ++
          ('"' :: ':' :: ' ' :: (dumps v ++ (dumpsFieldsRest fs ++ (rbrace :: rest)))))) =
        some ((k, v) :: fs, rest)) := by
  intro fuel
  induction fuel with
  | zero =>
    refine ⟨?_, ?_, ?_⟩
    · intro v rest _ hsz _
      exact absurd hsz (by have := sizeJ_pos v; omega)
    · intro x xs rest s _ _ hsz _
      exact absurd hsz (by have := sizeJ_pos x; simp only [sizeElems]; omega)
    · intro k v fs rest _ _ hsz
      exact absurd hsz (by have := sizeJ_pos v; simp only [sizeFields]; omega)
  | succ f ih =>
    obtain ⟨ihV, ihE, ihF⟩ := ih
    refine ⟨?_, ?_, ?_⟩
    · intro v rest hwf hsz hnb
      cases v with
      | null => exact parseValue_nil f rest
      | bool b =>
        cases b with
        | true => exact parseValue_true f rest
        | false => exact parseValue_false f rest
      | num n =>
        obtain ⟨c, t, hct, hc⟩ := intDec_head n
        rw [show dumps (.num n) = intDec n from rfl, hct]
        simp only [List.cons_append]
        rw [parseValue_num_head f c _ hc]
        rw [show c :: (t ++ rest) = (c :: t) ++ rest from rfl, ← hct]
        exact parseNum_intDec n rest hnb
      | str s =>
        rw [show dumps (.str s) = '"' :: (escapeStr s ++ ['"']) from rfl]
        simp only [List.cons_append, List.append_assoc, List.singleton_append, List.nil_append]
        rw [parseValue_quote]
        rw [parseStrBody_escape s f rest (by simp only [sizeJ] at hsz; omega)]
      | arr xs =>
        cases xs with
        | nil => exact parseValue_arrNil f rest
        | cons x xs =>
          rw [show dumps (.arr (x :: xs)) = '[' :: (dumpsElems (x :: xs) ++ [']']) from rfl,
            show dumpsElems (x :: xs) = dumps x ++ dumpsElemsRest xs from rfl]
          simp only [List.cons_append, List.append_assoc, List.singleton_append, List.nil_append]
          rw [parseValue_lbracket, skipWs_dumps_append]
          have hwfx : wfJ x = true ∧ wfElems xs = true := by
            have hx : wfJ (JSON.arr (x :: xs)) = (wfJ x && wfElems xs) := rfl
            rw [hx, Bool.and_eq_true] at hwf
            exact hwf
          have hsz2 : sizeElems (x :: xs) ≤ f := by
            have hx : sizeJ (JSON.arr (x :: xs)) = sizeElems (x :: xs) + 1 := rfl
            omega
          obtain ⟨c, t, hct, hws, hne⟩ := dumps_head_facts x
          have helems :
              parseElemsLoop f (c :: (t ++ (dumpsElemsRest xs ++ (']' :: rest)))) =
                some (x :: xs, rest) := by
            apply ihE x xs rest _ hwfx.1 hwfx.2 hsz2
            rw [skipWs_cons_not hws, ← List.cons_append, ← hct]
          rw [hct]
          simp only [List.cons_append]
          split
          · next heq =>
            exfalso
            rw [List.cons_eq_cons] at heq
            exact hne heq.1
          · next =>
            rw [helems]
      | obj fs =>
        cases fs with
        | nil => exact parseValue_objNil f rest
        | cons kv fs =>
          obtain ⟨k, v⟩ := kv
          have hw : (decide ((((k, v) :: fs).map Prod.fst).Nodup) &&
              wfFields ((k, v) :: fs)) = true := hwf
          rw [Bool.and_eq_true, decide_eq_true_eq] at hw
          have hw2 : (wfJ v && wfFields fs) = true := hw.2
          rw [Bool.and_eq_true] at hw2
          have hsz3 : sizeFields ((k, v) :: fs) ≤ f := by
            have hx : sizeJ (JSON.obj ((k, v) :: fs)) = sizeFields ((k, v) :: fs) + 1 := rfl
            omega
          rw [show dumps (.obj ((k, v) :: fs)) =
              lbrace :: (dumpsFields ((k, v) :: fs) ++ [rbrace]) from rfl,
            show dumpsFields ((k, v) :: fs) =
              ('"' :: (escapeStr k ++ '"' :: ':' :: ' ' :: dumps v)) ++ dumpsFieldsRest fs
              from rfl]
          simp only [List.cons_append, List.append_assoc, List.singleton_append, List.nil_append]
          rw [parseValue_lbrace, skipWs_cons_not (by decide : isWs '"' = false)]
          show (match parseFieldsLoop f
              ('"' :: (escapeStr k ++
                ('"' :: ':' :: ' ' :: (dumps v ++ (dumpsFieldsRest fs ++ (rbrace :: rest)))))) with
            | some (kvs, rest2) => some (JSON.obj (pyDict kvs), rest2)
            | none => none) = some (JSON.obj ((k, v) :: fs), rest)
          rw [ihF k v fs rest hw2.1 hw2.2 hsz3]
          show some (JSON.obj (pyDict ((k, v) :: fs)), rest) =
            some (JSON.obj ((k, v) :: fs), rest)
          rw [pyDict_self _ hw.1]
    · intro x xs rest s hwx hwxs hsz hskip
      have e1 : sizeElems (x :: xs) = sizeJ x + sizeElems xs + 1 := rfl
      have hpv : parseValue f s = some (x, dumpsElemsRest xs ++ (']' :: rest)) := by
        rw [← parseValue_skipWs, hskip, ← List.append_assoc]
        rw [List.append_assoc]
        exact ihV x _ hwx (by omega) (numBoundary_elemsRest xs rest)
      rw [parseElemsLoop_succ, hpv]
      cases xs with
      | nil => rfl
      | cons y ys =>
        have hwy : (wfJ y && wfElems ys) = true := hwxs
        rw [Bool.and_eq_true] at hwy
        have e2 : sizeElems (y :: ys) = sizeJ y + sizeElems ys + 1 := rfl
        show (match parseElemsLoop f
            (' ' :: ((dumps y ++ dumpsElemsRest ys) ++ (']' :: rest))) with
          | some (vs, rest3) => some (x :: vs, rest3)
          | none => none) = some (x :: y :: ys, rest)
        have hloop : parseElemsLoop f
            (' ' :: ((dumps y ++ dumpsElemsRest ys) ++ (']' :: rest))) =
            some (y :: ys, rest) := by
          apply ihE y ys rest _ hwy.1 hwy.2 (by omega)
          rw [skipWs_cons_ws (by decide), List.append_assoc, skipWs_dumps_append]
        rw [hloop]
    · intro k v fs rest hwv hwfs hsz
      have e1 : sizeFields ((k, v) :: fs) = k.length + sizeJ v + sizeFields fs + 3 := rfl
      have hszv : 1 ≤ sizeJ v := sizeJ_pos v
      rw [parseFieldsLoop_quote]
      rw [parseStrBody_escape k f _ (by omega)]
      show (match parseValue f (' ' :: (dumps v ++ (dumpsFieldsRest fs ++ (rbrace :: rest)))) with
        | some (v2, rest3) =>
          match skipWs rest3 with
          | ',' :: rest4 =>
            match parseFieldsLoop f (skipWs rest4) with
            | some (kvs, rest5) => some ((k, v2) :: kvs, rest5)
            | none => none
          | c3 :: rest4 => if c3 = rbrace then some ([(k, v2)], rest4) else none
          | [] => none
        | none => none) = some ((k, v) :: fs, rest)
      rw [parseValue_cons_ws f ' ' _ (by decide)]
      rw [ihV v _ hwv (by omega) (numBoundary_fieldsRest fs rest)]
      cases fs with
      | nil => rfl
      | cons kv2 fs2 =>
        obtain ⟨k2, v2⟩ := kv2
        have hw2 : (wfJ v2 && wfFields fs2) = true := hwfs
        rw [Bool.and_eq_true] at hw2
        have e2 : sizeFields ((k2, v2) :: fs2) = k2.length + sizeJ v2 + sizeFields fs2 + 3 := rfl
        show (match parseFieldsLoop f
            (skipWs (' ' :: ((('"' :: (escapeStr k2 ++ '"' :: ':' :: ' ' :: dumps v2)) ++
              dumpsFieldsRest fs2) ++ (rbrace :: rest)))) with
          | some (kvs, rest5) => some ((k, v) :: kvs, rest5)
          | none => none) = some ((k, v) :: (k2, v2) :: fs2, rest)
        have hsk : skipWs (' ' :: ((('"' :: (escapeStr k2 ++ '"' :: ':' :: ' ' :: dumps v2)) ++
            dumpsFieldsRest fs2) ++ (rbrace :: rest))) =
            '"' :: (escapeStr k2 ++
              ('"' :: ':' :: ' ' :: (dumps v2 ++ (dumpsFieldsRest fs2 ++ (rbrace :: rest))))) := by
          rw [skipWs_cons_ws (by decide)]
          rw [show ((('"' :: (escapeStr k2 ++ '"' :: ':' :: ' ' :: dumps v2)) ++
              dumpsFieldsRest fs2) ++ (rbrace :: rest)) =
              '"' :: (escapeStr k2 ++
                ('"' :: ':' :: ' ' :: (dumps v2 ++ (dumpsFieldsRest fs2 ++ (rbrace :: rest)))))
              from by simp only [List.cons_append, List.append_assoc]]
          rw [skipWs_cons_not (by decide)]
        rw [hsk, ihF k2 v2 fs2 rest hw2.1 hw2.2 (by omega)]

theorem JSON.indOn (motive : JSON → Prop)
    (h0 : motive .null) (h1 : ∀ b, motive (.bool b)) (h2 : ∀ n, motive (.num n))
    (h3 : ∀ s, motive (.str s))
    (h4 : ∀ xs, (∀ x ∈ xs, motive x) → motive (.arr xs))
    (h5 : ∀ fs, (∀ kv ∈ fs, motive kv.2) → motive (.obj fs)) :
    ∀ v, motive v
  | .null => h0
  | .bool b => h1 b
  | .num n => h2 n
  | .str s => h3 s
  | .arr xs => h4 xs (fun x hx =>
      have : sizeOf x < 1 + sizeOf xs := by
        have hm := List.sizeOf_lt_of_mem hx
        omega
      JSON.indOn motive h0 h1 h2 h3 h4 h5 x)
  | .obj fs => h5 fs (fun kv hkv =>
      have : sizeOf kv.2 < 1 + sizeOf fs := by
        have hm := List.sizeOf_lt_of_mem hkv
        have hkv2 : sizeOf kv.2 < sizeOf kv := by
          obtain ⟨a, b⟩ := kv
          have hps : sizeOf ((a, b) : Str × JSON) = 1 + sizeOf a + sizeOf b := rfl
          simp only [hps]
          omega
        omega
      JSON.indOn motive h0 h1 h2 h3 h4 h5 kv.2)
termination_by v => sizeOf v

theorem escapeChar_ne_nil (c : Char) : escapeChar c ≠ [] := by
  simp only [escapeChar]
  split_ifs <;> simp

theorem escapeStr_length (s : Str) : s.length ≤ (escapeStr s).length := by
  induction s with
  | nil => simp [escapeStr]
  | cons c cs ih =>
    have h1 : 1 ≤ (escapeChar c).length := by
      have := escapeChar_ne_nil c
      cases hx : escapeChar c with
      | nil => exact absurd hx this
      | cons a b => simp
    simp only [escapeStr, List.length_cons, List.length_append]
    omega

theorem sizeElems_le_rest (xs : List JSON)
    (h : ∀ x ∈ xs, sizeJ x ≤ (dumps x).length + 1) :
    sizeElems xs ≤ (dumpsElemsRest xs).length := by
  induction xs with
  | nil => simp [sizeElems, dumpsElemsRest]
  | cons x xs ih =>
    have hx := h x (by simp)
    have hrest := ih (fun y hy => h y (by simp [hy]))
    show sizeJ x + sizeElems xs + 1 ≤ (',' :: ' ' :: (dumps x ++ dumpsElemsRest xs)).length
    simp only [List.length_cons, List.length_append]
    omega

theorem sizeFields_le_rest (fs : List (Str × JSON))
    (h : ∀ kv ∈ fs, sizeJ kv.2 ≤ (dumps kv.2).length + 1) :
    sizeFields fs ≤ (dumpsFieldsRest fs).length := by
  induction fs with
  | nil => simp [sizeFields, dumpsFieldsRest]
  | cons kv fs ih =>
    obtain ⟨k, v⟩ := kv
    have hx : sizeJ v ≤ (dumps v).length + 1 := h (k, v) (by simp)
    have hrest := ih (fun y hy => h y (by simp [hy]))
    have hesc := escapeStr_length k
    show k.length + sizeJ v + sizeFields fs + 3 ≤
      (',' :: ' ' :: (('"' :: (escapeStr k ++ '"' :: ':' :: ' ' :: dumps v)) ++
        dumpsFieldsRest fs)).length
    simp only [List.length_cons, List.length_append]
    omega

theorem sizeJ_le_dumps (v : JSON) : sizeJ v ≤ (dumps v).length + 1 := by
  induction v using JSON.indOn with
  | h0 => simp [sizeJ]
  | h1 b => simp [sizeJ]
  | h2 n => simp [sizeJ]
  | h3 s =>
    have := escapeStr_length s
    show s.length + 2 ≤ ('"' :: (escapeStr s ++ ['"'])).length + 1
    simp only [List.length_cons, List.length_append, List.length_singleton]
    omega
  | h4 xs ih =>
    cases xs with
    | nil => simp [sizeJ, sizeElems, dumps, dumpsElems]
    | cons x xs =>
      have hx := ih x (by simp)
      have hrest := sizeElems_le_rest xs (fun y hy => ih y (by simp [hy]))
      show (sizeJ x + sizeElems xs + 1) + 1 ≤
        ('[' :: ((dumps x ++ dumpsElemsRest xs) ++ [']'])).length + 1
      simp only [List.length_cons, List.length_append, List.length_singleton]
      omega
  | h5 fs ih =>
    cases fs with
    | nil => simp [sizeJ, sizeFields, dumps, dumpsFields]
    | cons kv fs =>
      obtain ⟨k, v⟩ := kv
      have hx : sizeJ v ≤ (dumps v).length + 1 := ih (k, v) (by simp)
      have hrest := sizeFields_le_rest fs (fun y hy => ih y (by simp [hy]))
      have hesc := escapeStr_length k
      show (k.length + sizeJ v + sizeFields fs + 3) + 1 ≤
        (lbrace :: ((('"' :: (escapeStr k ++ '"' :: ':' :: ' ' :: dumps v)) ++
          dumpsFieldsRest fs) ++ [rbrace])).length + 1
      simp only [List.length_cons, List.length_append, List.length_singleton]
      omega

theorem loads_dumps (v : JSON) (hwf : wfJ v = true) : loads (dumps v) = some v := by
  have h1 : parseValue ((dumps v).length + 1) (dumps v ++ []) = some (v, []) :=
    (dumps_parse_all ((dumps v).length + 1)).1 v [] hwf
      (by have := sizeJ_le_dumps v; omega) rfl
  rw [List.append_nil] at h1
  unfold loads
  rw [h1]
  rfl

theorem wfElems_iff (xs : List JSON) : wfElems xs = true ↔ ∀ x ∈ xs, wfJ x = true := by
  induction xs with
  | nil => simp [wfElems]
  | cons x xs ih =>
    show (wfJ x && wfElems xs) = true ↔ _
    rw [Bool.and_eq_true, ih]
    simp

theorem wfFields_iff (fs : List (Str × JSON)) :
    wfFields fs = true ↔ ∀ kv ∈ fs, wfJ kv.2 = true := by
  induction fs with
  | nil => simp [wfFields]
  | cons kv fs ih =>
    obtain ⟨k, v⟩ := kv
    show (wfJ v && wfFields fs) = true ↔ _
    rw [Bool.and_eq_true, ih]
    constructor
    · rintro ⟨h1, h2⟩ kv hkv
      rcases List.mem_cons.mp hkv with rfl | hm
      · exact h1
      · exact h2 kv hm
    · intro h
      exact ⟨h (k, v) (by simp), fun kv hkv => h kv (by simp [hkv])⟩

theorem dictInsert_keys (m : List (Str × JSON)) (k : Str) (v : JSON) :
    (dictInsert m k v).map Prod.fst =
      if containsKey m k then m.map Prod.fst else m.map Prod.fst ++ [k] := by
  unfold dictInsert
  split_ifs with h
  · rw [List.map_map]
    apply List.map_congr_left
    intro kv _
    by_cases hk : kv.1 = k
    · simp [hk]
    · simp [hk]
  · simp

theorem mem_dictInsert (kv : Str × JSON) (m : List (Str × JSON)) (k : Str) (v : JSON)
    (h : kv ∈ dictInsert m k v) : kv ∈ m ∨ kv = (k, v) := by
  unfold dictInsert at h
  split_ifs at h with hc
  · obtain ⟨kv0, hkv0, heq⟩ := List.mem_map.mp h
    by_cases hk : kv0.1 = k
    · right
      rw [← heq]
      simp [hk]
    · left
      rw [← heq]
      simp only [if_neg hk]
      exact hkv0
  · rcases List.mem_append.mp h with hm | hm
    · exact Or.inl hm
    · right
      simpa using hm

theorem pyDictAux_nodup (kvs : List (Str × JSON)) :
    ∀ m, (m.map Prod.fst).Nodup →
      ((kvs.foldl (fun m2 kv => dictInsert m2 kv.1 kv.2) m).map Prod.fst).Nodup := by
  induction kvs with
  | nil => intro m h; simpa using h
  | cons kv kvs ih =>
    intro m h
    simp only [List.foldl_cons]
    apply ih
    rw [dictInsert_keys]
    split_ifs with hc
    · exact h
    · rw [List.nodup_append]
      have hcf : containsKey m kv.1 = false := Bool.eq_false_iff.mpr hc
      have hnm := (containsKey_eq_false_iff m kv.1).mp hcf
      refine ⟨h, List.nodup_singleton kv.1, ?_⟩
      intro a ha hb
      simp only [List.mem_singleton] at hb
      subst hb
      exact hnm ha

theorem pyDict_nodup (kvs : List (Str × JSON)) : ((pyDict kvs).map Prod.fst).Nodup :=
  pyDictAux_nodup kvs [] (by simp)

theorem pyDictAux_values (kvs : List (Str × JSON)) :
    ∀ m, (∀ kv ∈ m, wfJ kv.2 = true) → (∀ kv ∈ kvs, wfJ kv.2 = true) →
      ∀ kv ∈ kvs.foldl (fun m2 kv => dictInsert m2 kv.1 kv.2) m, wfJ kv.2 = true := by
  induction kvs with
  | nil => intro m hm _ kv hkv; exact hm kv hkv
  | cons kv0 kvs ih =>
    intro m hm hkvs kv hkv
    simp only [List.foldl_cons] at hkv
    refine ih (dictInsert m kv0.1 kv0.2) ?_ (fun y hy => hkvs y (by simp [hy])) kv hkv
    intro y hy
    rcases mem_dictInsert y m kv0.1 kv0.2 hy with hm2 | rfl
    · exact hm y hm2
    · exact hkvs kv0 (by simp)

theorem pyDict_wfFields (kvs : List (Str × JSON)) (h : ∀ kv ∈ kvs, wfJ kv.2 = true) :
    wfFields (pyDict kvs) = true :=
  (wfFields_iff _).mpr (pyDictAux_values kvs [] (by simp) h)

theorem parseNum_shape (s : Str) (v : JSON) (r : Str) (h : parseNum s = some (v, r)) :
    ∃ n, v = .num n := by
  cases s with
  | nil => simp [parseNum] at h
  | cons c rest =>
    simp only [parseNum] at h
    split_ifs at h
    · split at h
      · simp at h
        exact ⟨_, h.1.symm⟩
      · simp at h
    · split at h
      · simp at h
        exact ⟨_, h.1.symm⟩
      · simp at h

theorem parse_wf : ∀ fuel : Nat,
    (∀ s v r, parseValue fuel s = some (v, r) → wfJ v = true) ∧
    (∀ s xs r, parseElemsLoop fuel s = some (xs, r) → wfElems xs = true) ∧
    (∀ s kvs r, parseFieldsLoop fuel s = some (kvs, r) → wfFields kvs = true) := by
  intro fuel
  induction fuel with
  | zero =>
    refine ⟨?_, ?_, ?_⟩ <;> intro s v r h <;> simp [parseValue, parseElemsLoop, parseFieldsLoop] at h
  | succ f ih =>
    obtain ⟨ihV, ihE, ihF⟩ := ih
    refine ⟨?_, ?_, ?_⟩
    · intro s v r h
      simp only [parseValue] at h
      split at h
      · simp at h
      · next c cs =>
        split_ifs at h with h1 h2 h3 h4 h5 h6 h7
        · split at h
          · next => simp at h; exact h.1 ▸ rfl
          · simp at h
        · split at h
          · next => simp at h; exact h.1 ▸ rfl
          · simp at h
        · split at h
          · next => simp at h; exact h.1 ▸ rfl
          · simp at h
        · split at h
          · next s2 rest _ => simp at h; exact h.1 ▸ rfl
          · simp at h
        · split at h
          · next rest _ => simp at h; exact h.1 ▸ rfl
          · next s2 _ =>
            split at h
            · next xs rest heq =>
              simp at h
              have := ihE _ xs rest heq
              exact h.1 ▸ (by simpa [wfJ] using this)
            · simp at h
        · split at h
          · simp at h
          · next c2 rest _ =>
            split_ifs at h with hbr
            · simp at h
              exact h.1 ▸ rfl
            · split at h
              · next kvs rest2 heq =>
                simp at h
                have hfs := ihF (c2 :: rest) kvs rest2 heq
                have hwf2 : wfJ (.obj (pyDict kvs)) = true := by
                  show (decide (((pyDict kvs).map Prod.fst).Nodup) && wfFields (pyDict kvs)) = true
                  rw [Bool.and_eq_true, decide_eq_true_eq]
                  exact ⟨pyDict_nodup kvs, pyDict_wfFields kvs ((wfFields_iff kvs).mp hfs)⟩
                exact h.1 ▸ hwf2
              · simp at h
        · obtain ⟨n, rfl⟩ := parseNum_shape _ _ _ h
          rfl
    · intro s xs r h
      simp only [parseElemsLoop] at h
      split at h
      · simp at h
      · next v rest heq =>
        have hv := ihV s v rest heq
        split at h
        · split at h
          · next vs rest3 heq2 =>
            have hvs := ihE _ vs rest3 heq2
            simp at h
            rw [← h.1]
            show (wfJ v && wfElems vs) = true
            rw [Bool.and_eq_true]
            exact ⟨hv, hvs⟩
          · simp at h
        · next rest2 =>
          simp at h
          rw [← h.1]
          show (wfJ v && wfElems []) = true
          simp [hv, wfElems]
        · simp at h
    · intro s kvs r h
      simp only [parseFieldsLoop] at h
      split at h
      · next k cs =>
        split at h
        · next k2 rest heq =>
          split at h
          · next rest2 =>
            split at h
            · next v rest3 heq2 =>
              have hv := ihV _ v rest3 heq2
              split at h
              · split at h
                · next kvs2 rest5 heq3 =>
                  have hkvs := ihF _ kvs2 rest5 heq3
                  simp at h
                  rw [← h.1]
                  show (wfJ v && wfFields kvs2) = true
                  rw [Bool.and_eq_true]
                  exact ⟨hv, hkvs⟩
                · simp at h
              · next c3 rest4 =>
                split_ifs at h
                simp at h
                rw [← h.1]
                show (wfJ v && wfFields []) = true
                simp [hv, wfFields]
              · simp at h
            · simp at h
          · simp at h
        · simp at h
      · simp at h

theorem loads_wf (s : Str) (j : JSON) (h : loads s = some j) : wfJ j = true := by
  unfold loads at h
  split at h
  · next v rest heq =>
    split_ifs at h
    simp at h
    rw [← h]
    exact (parse_wf _).1 s v rest heq
  · simp at h

theorem wfJ_obj_iff (fs : List (Str × JSON)) :
    wfJ (.obj fs) = true ↔ (fs.map Prod.fst).Nodup ∧ wfFields fs = true := by
  show (decide ((fs.map Prod.fst).Nodup) && wfFields fs) = true ↔ _
  rw [Bool.and_eq_true, decide_eq_true_eq]

theorem getItem_wf {v : JSON} {k : Str} {u : JSON} (hw : wfJ v = true)
    (h : getItem v k = .ok u) : wfJ u = true := by
  cases v with
  | obj fs =>
    simp only [getItem] at h
    split at h
    · next kv heq =>
      have hkv := List.mem_of_find?_eq_some heq
      have hw2 : wfFields fs = true := ((wfJ_obj_iff fs).mp hw).2
      have hval := (wfFields_iff fs).mp hw2 kv hkv
      simp at h
      rw [← h]
      exact hval
    · simp at h
  | null => simp [getItem] at h
  | bool b => simp [getItem] at h
  | num n => simp [getItem] at h
  | str s => simp [getItem] at h
  | arr xs => simp [getItem] at h

theorem pyIter_wf {j : JSON} {elems : List JSON} (hw : wfJ j = true)
    (h : pyIter j = .ok elems) : ∀ e ∈ elems, wfJ e = true := by
  cases j with
  | arr xs =>
    simp only [pyIter] at h
    simp at h
    rw [← h]
    exact (wfElems_iff xs).mp hw
  | obj fs =>
    simp only [pyIter] at h
    simp at h
    intro e he
    rw [← h] at he
    obtain ⟨kv, _, rfl⟩ := List.mem_map.mp he
    rfl
  | str s =>
    simp only [pyIter] at h
    simp at h
    intro e he
    rw [← h] at he
    obtain ⟨c, _, rfl⟩ := List.mem_map.mp he
    rfl
  | null => simp [pyIter] at h
  | bool b => simp [pyIter] at h
  | num n => simp [pyIter] at h

theorem buildStep_ok {m : List (Str × JSON)} {e : JSON} {m2 : List (Str × JSON)}
    (h : buildStep m e = .ok m2) :
    ∃ c msg, getItem e codeKey = .ok c ∧ getItem e messageKey = .ok msg ∧
      m2 = dictInsert m (pyStr c) msg := by
  simp only [buildStep, bind, Except.bind] at h
  split at h
  · simp at h
  · next c heqc =>
    split at h
    · simp at h
    · next msg heqm =>
      simp only [pure, Except.pure] at h
      simp at h
      exact ⟨c, msg, heqc, heqm, h.symm⟩

theorem buildCodesAux_wf : ∀ (elems : List JSON) (m0 : List (Str × JSON)),
    (∀ e ∈ elems, wfJ e = true) → ((m0.map Prod.fst).Nodup) →
    (∀ kv ∈ m0, wfJ kv.2 = true) →
    ∀ m, buildCodesAux m0 elems = .ok m →
      ((m.map Prod.fst).Nodup) ∧ (∀ kv ∈ m, wfJ kv.2 = true) := by
  intro elems
  induction elems with
  | nil =>
    intro m0 _ hnd hval m h
    simp only [buildCodesAux] at h
    simp at h
    rw [← h]
    exact ⟨hnd, hval⟩
  | cons e rest ih =>
    intro m0 he hnd hval m h
    simp only [buildCodesAux] at h
    split at h
    · next m2 heq =>
      obtain ⟨c, msg, hc, hm, rfl⟩ := buildStep_ok heq
      have hmsgwf : wfJ msg = true := getItem_wf (he e (by simp)) hm
      refine ih _ (fun x hx => he x (by simp [hx])) ?_ ?_ m h
      · rw [dictInsert_keys]
        split_ifs with hcont
        · exact hnd
        · rw [List.nodup_append]
          have hcf : containsKey m0 (pyStr c) = false := Bool.eq_false_iff.mpr hcont
          refine ⟨hnd, List.nodup_singleton _, ?_⟩
          intro a ha hb
          simp only [List.mem_singleton] at hb
          subst hb
          exact (containsKey_eq_false_iff m0 (pyStr c)).mp hcf ha
      · intro kv hkv
        rcases mem_dictInsert kv m0 (pyStr c) msg hkv with hm2 | rfl
        · exact hval kv hm2
        · exact hmsgwf
    · simp at h

theorem buildCodes_wf {elems : List JSON} (hw : ∀ e ∈ elems, wfJ e = true)
    {m : List (Str × JSON)} (h : buildCodes elems = .ok m) : wfJ (.obj m) = true := by
  obtain ⟨hnd, hval⟩ := buildCodesAux_wf elems [] hw (by simp) (by simp) m h
  exact (wfJ_obj_iff m).mpr ⟨hnd, (wfFields_iff m).mpr hval⟩

theorem dictLookup_cons (a : Str × JSON) (m : List (Str × JSON)) (k : Str) :
    dictLookup (a :: m) k = if a.1 = k then some a.2 else dictLookup m k := by
  unfold dictLookup
  rw [List.find?_cons]
  by_cases h : a.1 = k
  · simp [h]
  · simp [h]

theorem dictLookup_append (m m2 : List (Str × JSON)) (k : Str) :
    dictLookup (m ++ m2) k =
      match dictLookup m k with
      | some v => some v
      | none => dictLookup m2 k := by
  induction m with
  | nil => simp [dictLookup]
  | cons a m ih =>
    rw [List.cons_append, dictLookup_cons, dictLookup_cons]
    by_cases h : a.1 = k
    · simp [h]
    · simp only [if_neg h]
      exact ih

theorem dictLookup_none_of_not_contains (m : List (Str × JSON)) (k : Str)
    (h : containsKey m k = false) : dictLookup m k = none := by
  induction m with
  | nil => rfl
  | cons a m ih =>
    unfold containsKey at h
    simp only [List.any_cons, Bool.or_eq_false_iff] at h
    rw [dictLookup_cons, if_neg (by simpa using h.1)]
    exact ih (by unfold containsKey; exact h.2)

theorem dictLookup_mapReplace (m : List (Str × JSON)) (k0 k : Str) (v0 : JSON) (hne : k0 ≠ k) :
    dictLookup (m.map (fun kv => if kv.1 = k0 then (k0, v0) else kv)) k = dictLookup m k := by
  induction m with
  | nil => rfl
  | cons a m ih =>
    simp only [List.map_cons]
    rw [dictLookup_cons, dictLookup_cons]
    by_cases hak : a.1 = k0
    · rw [if_pos hak, if_neg (show ¬((k0, v0) : Str × JSON).1 = k from hne),
        if_neg (show ¬a.1 = k from fun h => hne (hak.symm.trans h))]
      exact ih
    · rw [if_neg hak]
      by_cases hk : a.1 = k
      · rw [if_pos hk, if_pos hk]
      · rw [if_neg hk, if_neg hk]
        exact ih

theorem dictLookup_mapReplace_hit (m : List (Str × JSON)) (k0 : Str) (v0 : JSON)
    (h : containsKey m k0 = true) :
    dictLookup (m.map (fun kv => if kv.1 = k0 then (k0, v0) else kv)) k0 = some v0 := by
  induction m with
  | nil => simp [containsKey] at h
  | cons a m ih =>
    simp only [List.map_cons]
    rw [dictLookup_cons]
    by_cases hak : a.1 = k0
    · rw [if_pos hak, if_pos (show ((k0, v0) : Str × JSON).1 = k0 from rfl)]
    · rw [if_neg hak, if_neg hak]
      unfold containsKey at h
      simp only [List.any_cons, Bool.or_eq_true] at h
      rcases h with h | h
      · exact absurd (by simpa using h) hak
      · exact ih (by unfold containsKey; exact h)

theorem dictLookup_dictInsert (m : List (Str × JSON)) (k0 k : Str) (v0 : JSON) :
    dictLookup (dictInsert m k0 v0) k = if k0 = k then some v0 else dictLookup m k := by
  by_cases hc : containsKey m k0 = true
  · rw [dictInsert, if_pos hc]
    by_cases hk : k0 = k
    · subst hk
      rw [if_pos rfl]
      exact dictLookup_mapReplace_hit m k0 v0 hc
    · rw [if_neg hk]
      exact dictLookup_mapReplace m k0 k v0 hk
  · rw [dictInsert, if_neg hc, dictLookup_append]
    rw [dictLookup_cons]
    by_cases hk : k0 = k
    · subst hk
      rw [dictLookup_none_of_not_contains m k0 (Bool.eq_false_iff.mpr hc)]
      simp
    · rw [if_neg hk, if_neg (show ¬((k0, v0) : Str × JSON).1 = k from hk)]
      cases hdl : dictLookup m k <;> simp [dictLookup]

theorem dictLookup_foldl (kvs : List (Str × JSON)) :
    ∀ (m0 : List (Str × JSON)) (k : Str),
      dictLookup (kvs.foldl (fun m kv => dictInsert m kv.1 kv.2) m0) k =
        match lastVal kvs k with
        | some v => some v
        | none => dictLookup m0 k := by
  induction kvs with
  | nil => intro m0 k; simp [lastVal]
  | cons kv kvs ih =>
    intro m0 k
    simp only [List.foldl_cons]
    rw [ih (dictInsert m0 kv.1 kv.2) k, dictLookup_dictInsert]
    show _ = (match lastVal (kv :: kvs) k with
      | some v => some v
      | none => dictLookup m0 k)
    rw [show lastVal (kv :: kvs) k =
      (match lastVal kvs k with
       | some v => some v
       | none => if kv.1 = k then some kv.2 else none) from by
        obtain ⟨a, b⟩ := kv
        rfl]
    cases hlv : lastVal kvs k with
    | some v => simp
    | none =>
      by_cases hk : kv.1 = k
      · simp [hk]
      · simp [hk]

theorem hasField_getItem {e : JSON} {k : Str} (h : hasField e k = true) :
    ∃ u, getItem e k = .ok u := by
  cases e with
  | obj fs =>
    simp only [hasField, List.find?_isSome] at h
    obtain ⟨kv, hkv, hp⟩ := h
    simp only [getItem]
    cases hf : fs.find? (fun kv => decide (kv.1 = k)) with
    | none =>
      rw [List.find?_eq_none] at hf
      exact absurd hp (by simpa using hf kv hkv)
    | some kv2 => exact ⟨kv2.2, rfl⟩
  | null => simp [hasField] at h
  | bool b => simp [hasField] at h
  | num n => simp [hasField] at h
  | str s => simp [hasField] at h
  | arr xs => simp [hasField] at h

theorem getItem_schema {e : JSON} {k : Str} (h : hasField e k = false) :
    getItem e k = .error .schema := by
  cases e with
  | obj fs =>
    simp only [hasField] at h
    simp only [getItem]
    cases hf : fs.find? (fun kv => decide (kv.1 = k)) with
    | none => rfl
    | some kv2 => rw [hf] at h; simp at h
  | null => rfl
  | bool b => rfl
  | num n => rfl
  | str s => rfl
  | arr xs => rfl

theorem buildStep_eq {m : List (Str × JSON)} {e : JSON} {c msg : JSON}
    (hc : getItem e codeKey = .ok c) (hm : getItem e messageKey = .ok msg) :
    buildStep m e = .ok (dictInsert m (pyStr c) msg) := by
  simp only [buildStep, bind, Except.bind, hc, hm]
  rfl

theorem entryOf_eq {e : JSON} {c msg : JSON}
    (hc : getItem e codeKey = .ok c) (hm : getItem e messageKey = .ok msg) :
    entryOf e = (pyStr c, msg) := by
  simp [entryOf, recKey, recMsg, hc, hm]

theorem buildCodesAux_eq (elems : List JSON) :
    ∀ m0, (∀ e ∈ elems, hasField e codeKey = true ∧ hasField e messageKey = true) →
      buildCodesAux m0 elems =
        .ok ((elems.map entryOf).foldl (fun m kv => dictInsert m kv.1 kv.2) m0) := by
  induction elems with
  | nil => intro m0 _; rfl
  | cons e rest ih =>
    intro m0 h
    obtain ⟨c, hc⟩ := hasField_getItem (h e (by simp)).1
    obtain ⟨msg, hm⟩ := hasField_getItem (h e (by simp)).2
    simp only [buildCodesAux, buildStep_eq hc hm]
    rw [ih (dictInsert m0 (pyStr c) msg) (fun x hx => h x (by simp [hx]))]
    simp only [List.map_cons, List.foldl_cons, entryOf_eq hc hm]

theorem buildCodes_eq (elems : List JSON)
    (h : ∀ e ∈ elems, hasField e codeKey = true ∧ hasField e messageKey = true) :
    buildCodes elems = .ok (pyDict (elems.map entryOf)) :=
  buildCodesAux_eq elems [] h

theorem lastVal_entryOf (elems : List JSON)
    (h : ∀ e ∈ elems, hasField e codeKey = true ∧ hasField e messageKey = true) (k : Str) :
    lastVal (elems.map entryOf) k = lastMessage elems k := by
  induction elems with
  | nil => rfl
  | cons e rest ih =>
    obtain ⟨c, hc⟩ := hasField_getItem (h e (by simp)).1
    obtain ⟨msg, hm⟩ := hasField_getItem (h e (by simp)).2
    simp only [List.map_cons, entryOf_eq hc hm]
    show (match lastVal (rest.map entryOf) k with
      | some v => some v
      | none => if pyStr c = k then some msg else none) = _
    rw [ih (fun x hx => h x (by simp [hx]))]
    show _ = (match lastMessage rest k with
      | some v => some v
      | none => if recKey e = some k then recMsg e else none)
    cases lastMessage rest k with
    | some v => rfl
    | none =>
      simp only [recKey, recMsg, hc, hm]
      by_cases hk : pyStr c = k
      · simp [hk]
      · simp [hk]

theorem containsKey_iff_mem (m : List (Str × JSON)) (k : Str) :
    containsKey m k = true ↔ k ∈ m.map Prod.fst := by
  cases h : containsKey m k
  · simp only [Bool.false_eq_true, false_iff]
    exact (containsKey_eq_false_iff m k).mp h
  · simp only [true_iff]
    obtain ⟨kv, hkv, hk⟩ := List.any_eq_true.mp h
    exact List.mem_map.mpr ⟨kv, hkv, by simpa using hk⟩

theorem newKeys_congr (ks : List Str) :
    ∀ s1 s2, (∀ a, a ∈ s1 ↔ a ∈ s2) → newKeys s1 ks = newKeys s2 ks := by
  induction ks with
  | nil => intro s1 s2 _; rfl
  | cons k ks ih =>
    intro s1 s2 h
    simp only [newKeys]
    by_cases hm : k ∈ s1
    · rw [if_pos hm, if_pos ((h k).mp hm)]
      exact ih s1 s2 h
    · rw [if_neg hm, if_neg (fun hx => hm ((h k).mpr hx))]
      rw [ih (k :: s1) (k :: s2) (by intro a; simp [h a])]

theorem foldl_dictInsert_keys (kvs : List (Str × JSON)) :
    ∀ m0, ((kvs.foldl (fun m kv => dictInsert m kv.1 kv.2) m0).map Prod.fst) =
      m0.map Prod.fst ++ newKeys (m0.map Prod.fst) (kvs.map Prod.fst) := by
  induction kvs with
  | nil => intro m0; simp [newKeys]
  | cons kv kvs ih =>
    intro m0
    simp only [List.foldl_cons, List.map_cons, newKeys]
    rw [ih (dictInsert m0 kv.1 kv.2), dictInsert_keys]
    by_cases hc : containsKey m0 kv.1 = true
    · rw [if_pos hc, if_pos ((containsKey_iff_mem m0 kv.1).mp hc)]
    · rw [if_neg hc,
        if_neg (fun hx => hc ((containsKey_iff_mem m0 kv.1).mpr hx))]
      rw [newKeys_congr (kvs.map Prod.fst) (m0.map Prod.fst ++ [kv.1])
        (kv.1 :: m0.map Prod.fst) (by intro a; simp; tauto)]
      simp

theorem pyDict_keys (kvs : List (Str × JSON)) :
    (pyDict kvs).map Prod.fst = newKeys [] (kvs.map Prod.fst) := by
  have h := foldl_dictInsert_keys kvs []
  simpa [pyDict] using h

theorem transform_of {body : Str} {j : JSON} {elems : List JSON} {m : List (Str × JSON)}
    (hj : loads body = some j) (he : pyIter j = .ok elems) (hm : buildCodes elems = .ok m) :
    transform body = .ok (dumps (.obj m)) := by
  simp only [transform, hj, he, hm]

theorem transform_ok {body out : Str} (h : transform body = .ok out) :
    ∃ j elems m, loads body = some j ∧ pyIter j = .ok elems ∧ buildCodes elems = .ok m ∧
      out = dumps (.obj m) := by
  simp only [transform] at h
  split at h
  · simp at h
  · next j hj =>
    split at h
    · simp at h
    · next elems he =>
      split at h
      · simp at h
      · next m hm =>
        simp at h
        exact ⟨j, elems, m, hj, he, hm, h.symm⟩

theorem buildStep_err {m : List (Str × JSON)} {e : JSON}
    (h : hasField e codeKey = false ∨ hasField e messageKey = false) :
    buildStep m e = .error .schema := by
  by_cases h1 : hasField e codeKey = true
  · have h2 : hasField e messageKey = false := by
      rcases h with hx | hx
      · rw [h1] at hx; cases hx
      · exact hx
    obtain ⟨c, hc⟩ := hasField_getItem h1
    simp only [buildStep, bind, Except.bind, hc, getItem_schema h2]
  · have h1f : hasField e codeKey = false := Bool.eq_false_iff.mpr h1
    simp only [buildStep, bind, Except.bind, getItem_schema h1f]

theorem buildCodesAux_err (elems : List JSON) :
    ∀ m0, (buildCodesAux m0 elems = .error .schema ↔
        ∃ e ∈ elems, hasField e codeKey = false ∨ hasField e messageKey = false) ∧
      (∀ err, buildCodesAux m0 elems = .error err → err = .schema) := by
  induction elems with
  | nil =>
    intro m0
    refine ⟨?_, ?_⟩
    · simp [buildCodesAux]
    · intro err h
      simp [buildCodesAux] at h
  | cons e rest ih =>
    intro m0
    by_cases he : hasField e codeKey = true ∧ hasField e messageKey = true
    · obtain ⟨c, hc⟩ := hasField_getItem he.1
      obtain ⟨msg, hm⟩ := hasField_getItem he.2
      have hstep := buildStep_eq (m := m0) hc hm
      refine ⟨?_, ?_⟩
      · rw [show buildCodesAux m0 (e :: rest) =
          buildCodesAux (dictInsert m0 (pyStr c) msg) rest from by
            simp only [buildCodesAux, hstep]]
        rw [(ih (dictInsert m0 (pyStr c) msg)).1]
        constructor
        · rintro ⟨e2, he2, hf⟩
          exact ⟨e2, by simp [he2], hf⟩
        · rintro ⟨e2, he2, hf⟩
          rcases List.mem_cons.mp he2 with rfl | hmem
          · rcases hf with hf | hf
            · rw [he.1] at hf; cases hf
            · rw [he.2] at hf; cases hf
          · exact ⟨e2, hmem, hf⟩
      · intro err h
        rw [show buildCodesAux m0 (e :: rest) =
          buildCodesAux (dictInsert m0 (pyStr c) msg) rest from by
            simp only [buildCodesAux, hstep]] at h
        exact (ih _).2 err h
    · have hf : hasField e codeKey = false ∨ hasField e messageKey = false := by
        by_cases h1 : hasField e codeKey = true
        · right
          by_cases h2 : hasField e messageKey = true
          · exact absurd ⟨h1, h2⟩ he
          · exact Bool.eq_false_iff.mpr h2
        · exact Or.inl (Bool.eq_false_iff.mpr h1)
      have hstep := buildStep_err (m := m0) hf
      have hrun : buildCodesAux m0 (e :: rest) = .error .schema := by
        simp only [buildCodesAux, hstep]
      refine ⟨?_, ?_⟩
      · rw [hrun]
        simp only [true_iff]
        exact ⟨e, by simp, hf⟩
      · intro err h
        rw [hrun] at h
        simp at h
        exact h.symm

theorem buildCodesAux_congr {elems elems' : List JSON}
    (h : List.Forall₂ (fun e e' => getItem e codeKey = getItem e' codeKey ∧
      getItem e messageKey = getItem e' messageKey) elems elems') :
    ∀ m, buildCodesAux m elems = buildCodesAux m elems' := by
  induction h with
  | nil => intro m; rfl
  | @cons a b l1 l2 hre htail ih =>
    intro m
    have hstep : buildStep m a = buildStep m b := by
      simp only [buildStep, hre.1, hre.2]
    simp only [buildCodesAux, hstep]
    split
    · next m2 _ => exact ih m2
    · rfl

/-- C1: for every response body parsing to a JSON array of records each
carrying `code` and `message`, the run succeeds and the output mapping has
pairwise distinct keys with, at every key, exactly the `message` of the last
record whose coerced `code` equals that key (last write wins); in particular
the duplicate-code scenario body yields `{"1": "second"}`. -/
theorem claim_C1_last_write_wins :
    (∀ (st : Nat) (body : Str) (elems : List JSON),
      loads body = some (.arr elems) →
      (∀ e ∈ elems, hasField e codeKey = true ∧ hasField e messageKey = true) →
      ∃ m, run (.response st body) = .ok (dumps (.obj m)) ∧
        ((m.map Prod.fst).Nodup) ∧
        (∀ k, dictLookup m k = lastMessage elems k)) ∧
    run (.response 200 dupBody) = .ok dupOut := by
  constructor
  · intro st body elems hl hf
    refine ⟨pyDict (elems.map entryOf), ?_, pyDict_nodup _, ?_⟩
    · exact transform_of hl rfl (buildCodes_eq elems hf)
    · intro k
      unfold pyDict
      rw [dictLookup_foldl, lastVal_entryOf elems hf k]
      cases lastMessage elems k <;> rfl
  · rfl

/-- C1 witness: the general half applied to the duplicate-code scenario. -/
theorem claim_C1_witness :
    ∃ m, run (.response 200 dupBody) = .ok (dumps (.obj m)) ∧
      ((m.map Prod.fst).Nodup) ∧
      (∀ k, dictLookup m k =
        lastMessage [.obj [(chars "code", .num 1), (chars "message", .str (chars "first"))],
          .obj [(chars "code", .num 1), (chars "message", .str (chars "second"))]] k) :=
  claim_C1_last_write_wins.1 200 dupBody
    [.obj [(chars "code", .num 1), (chars "message", .str (chars "first"))],
     .obj [(chars "code", .num 1), (chars "message", .str (chars "second"))]]
    rfl (by decide)

/-- C3: each record contributes the entry whose key is `str()` of its `code`
field and whose value is its `message` field, assembled by Python dict
assignment; in particular the two-record scenario (numeric and string codes,
a message containing apostrophes) yields exactly the specified output. -/
theorem claim_C3_key_coercion :
    (∀ (st : Nat) (body : Str) (elems : List JSON),
      loads body = some (.arr elems) →
      (∀ e ∈ elems, hasField e codeKey = true ∧ hasField e messageKey = true) →
      run (.response st body) = .ok (dumps (.obj (pyDict (elems.map entryOf))))) ∧
    run (.response 200 scenarioBody) = .ok scenarioOut := by
  constructor
  · intro st body elems hl hf
    exact transform_of hl rfl (buildCodes_eq elems hf)
  · rfl

/-- C3 witness: the general half applied to a one-record body. -/
theorem claim_C3_witness :
    run (.response 200 (chars "[\x7b\"code\": 7, \"message\": \"x\"\x7d]")) =
      .ok (dumps (.obj (pyDict
        ([JSON.obj [(chars "code", .num 7), (chars "message", .str (chars "x"))]].map
          entryOf)))) :=
  claim_C3_key_coercion.1 200 _ _ rfl (by decide)

/-- C4: the comprehension fails (with the schema error that terminates the
run) exactly when some element lacks `code` or `message`; every element
carrying both makes it succeed, and no other error kind can arise from it. -/
theorem claim_C4_schema_error_iff (elems : List JSON) :
    (buildCodes elems = .error .schema ↔
      ∃ e ∈ elems, hasField e codeKey = false ∨ hasField e messageKey = false) ∧
    ((∀ e ∈ elems, hasField e codeKey = true ∧ hasField e messageKey = true) →
      ∃ m, buildCodes elems = .ok m) ∧
    (∀ err, buildCodes elems = .error err → err = .schema) := by
  refine ⟨(buildCodesAux_err elems []).1, ?_, (buildCodesAux_err elems []).2⟩
  intro hf
  exact ⟨pyDict (elems.map entryOf), buildCodes_eq elems hf⟩

/-- C4 witness: an element missing `message` makes the comprehension fail
with the schema error; with the field present it succeeds. -/
theorem claim_C4_witness :
    buildCodes [JSON.obj [(chars "code", .num 1)]] = .error .schema ∧
    ∃ m, buildCodes [JSON.obj [(chars "code", .num 1),
      (chars "message", .str (chars "x"))]] = .ok m := by
  constructor
  · exact (claim_C4_schema_error_iff [JSON.obj [(chars "code", .num 1)]]).1.mpr
      ⟨JSON.obj [(chars "code", .num 1)], by simp, Or.inr rfl⟩
  · exact (claim_C4_schema_error_iff _).2.1 (by decide)

/-- C5: on every successful run the written text, parsed back as JSON, is
exactly the in-memory mapping built from the source array: the same
association list, hence the same key set and the same value at every key. -/
theorem claim_C5_roundtrip (st : Nat) (body out : Str) (j : JSON) (elems : List JSON)
    (m : List (Str × JSON)) (hj : loads body = some j) (he : pyIter j = .ok elems)
    (hm : buildCodes elems = .ok m) (hrun : run (.response st body) = .ok out) :
    out = dumps (.obj m) ∧ loads out = some (.obj m) := by
  have ht : transform body = .ok (dumps (.obj m)) := transform_of hj he hm
  have hout : out = dumps (.obj m) := by
    have : Except.ok (ε := PyErr) out = .ok (dumps (.obj m)) := by
      rw [← hrun, ← ht]; rfl
    simpa using this
  refine ⟨hout, ?_⟩
  rw [hout]
  apply loads_dumps
  exact buildCodes_wf (pyIter_wf (loads_wf body j hj) he) hm

/-- C5 witness: the roundtrip at the duplicate-code scenario. -/
theorem claim_C5_witness :
    dupOut = dumps (.obj [(chars "1", .str (chars "second"))]) ∧
    loads dupOut = some (.obj [(chars "1", .str (chars "second"))]) :=
  claim_C5_roundtrip 200 dupBody dupOut
    (.arr [.obj [(chars "code", .num 1), (chars "message", .str (chars "first"))],
           .obj [(chars "code", .num 1), (chars "message", .str (chars "second"))]])
    [.obj [(chars "code", .num 1), (chars "message", .str (chars "first"))],
     .obj [(chars "code", .num 1), (chars "message", .str (chars "second"))]]
    [(chars "1", .str (chars "second"))] rfl rfl rfl rfl

/-- C2 counterexample: a completed response with the non-2xx status 404 and
body `[]` does not fail with a network error as the claim requires: the run
succeeds, writes `{}`, and exits 0 (the script never checks
`response.status_code`). -/
theorem claim_C2_counterexample :
    run (.response 404 (chars "[]")) = .ok (chars "\x7b\x7d") ∧
    runWorld ⟨.response 404 (chars "[]"), true, none⟩ =
      (.ok (), some (chars "\x7b\x7d")) ∧
    exitCode ⟨.response 404 (chars "[]"), true, none⟩ = 0 :=
  ⟨rfl, rfl, rfl⟩

/-- C2 amended: only a connection-level failure of the GET raises the network
error that terminates the run; the status code of a completed response is
ignored, and the body is processed identically under every status. -/
theorem claim_C2_status_ignored :
    run .failure = .error .network ∧
    ∀ (st st' : Nat) (body : Str), run (.response st body) = run (.response st' body) :=
  ⟨rfl, fun _ _ _ => rfl⟩

/-- C6: the run exits 0 exactly when the fetch completed, the body parsed,
the body was iterable with every element carrying both fields (the
comprehension succeeded), and the output path was writable; every failure
surfaces as the error of its stage and a nonzero exit, with no other exit
values. -/
theorem claim_C6_exit_code (w : World) :
    (exitCode w = 0 ↔
      ∃ st body j elems m, w.net = .response st body ∧ loads body = some j ∧
        pyIter j = .ok elems ∧ buildCodes elems = .ok m ∧ w.writable = true) ∧
    (∀ e, (runWorld w).1 = .error e → exitCode w = 1) ∧
    (exitCode w = 0 ∨ exitCode w = 1) := by
  obtain ⟨net, writable, file⟩ := w
  refine ⟨?_, ?_, ?_⟩
  · cases net with
    | failure =>
      have h1 : exitCode ⟨.failure, writable, file⟩ = 1 := rfl
      rw [h1]
      simp
    | response st body =>
      cases htr : transform body with
      | error e =>
        have h1 : exitCode ⟨.response st body, writable, file⟩ = 1 := by
          simp only [exitCode, runWorld, script, run, htr, applyEvents]
        rw [h1]
        constructor
        · intro h; cases h
        · rintro ⟨st2, body2, j, elems, m, heq, hj, he, hm, _⟩
          injection heq with heq1 heq2
          subst heq2
          have hok : transform body = .ok (dumps (.obj m)) := transform_of hj he hm
          rw [htr] at hok
          cases hok
      | ok out =>
        cases writable with
        | true =>
          have h0 : exitCode ⟨.response st body, true, file⟩ = 0 := by
            simp only [exitCode, runWorld, script, run, htr, applyEvents]
            simp
          rw [h0]
          constructor
          · intro _
            obtain ⟨j, elems, m, hj, he, hm, _⟩ := transform_ok htr
            exact ⟨st, body, j, elems, m, rfl, hj, he, hm, rfl⟩
          · intro _; rfl
        | false =>
          have h1 : exitCode ⟨.response st body, false, file⟩ = 1 := by
            simp only [exitCode, runWorld, script, run, htr, applyEvents]
            simp
          rw [h1]
          constructor
          · intro h; cases h
          · rintro ⟨_, _, _, _, _, _, _, _, _, hfw⟩
            cases hfw
  · intro e he2
    unfold exitCode
    rw [he2]
  · unfold exitCode
    cases (runWorld ⟨net, writable, file⟩).1 <;> simp

/-- C6 witness: the success case at a concrete world (status 200, body `[]`,
writable output path) and the failure case at a connection failure. -/
theorem claim_C6_witness :
    exitCode ⟨.response 200 (chars "[]"), true, none⟩ = 0 ∧
    exitCode ⟨.failure, true, none⟩ = 1 := by
  constructor
  · exact (claim_C6_exit_code ⟨.response 200 (chars "[]"), true, none⟩).1.mpr
      ⟨200, chars "[]", .arr [], [], [], rfl, rfl, rfl, rfl, rfl⟩
  · exact (claim_C6_exit_code ⟨.failure, true, none⟩).2.1 .network rfl

/-- C7: a body parsing to the empty array makes the run succeed and write
exactly the empty JSON object. -/
theorem claim_C7_empty_array (st : Nat) (body : Str) (h : loads body = some (.arr [])) :
    run (.response st body) = .ok (chars "\x7b\x7d") ∧
    ∀ file, runWorld ⟨.response st body, true, file⟩ = (.ok (), some (chars "\x7b\x7d")) ∧
      exitCode ⟨.response st body, true, file⟩ = 0 := by
  have ht : transform body = .ok (chars "\x7b\x7d") := transform_of h rfl rfl
  refine ⟨ht, ?_⟩
  intro file
  constructor
  · simp only [runWorld, script, run, ht, applyEvents]
    rfl
  · simp only [exitCode, runWorld, script, run, ht, applyEvents]
    simp

/-- C7 witness: the empty-array run at the literal body `[]`. -/
theorem claim_C7_witness :
    run (.response 404 (chars "[]")) = .ok (chars "\x7b\x7d") :=
  (claim_C7_empty_array 404 (chars "[]") rfl).1

/-- C8: the keys of the output mapping are the distinct coerced codes in
order of first occurrence in the source array, which is also the order in
which `dumps` lists them in the output file. -/
theorem claim_C8_insertion_order (st : Nat) (body : Str) (elems : List JSON)
    (hl : loads body = some (.arr elems))
    (hf : ∀ e ∈ elems, hasField e codeKey = true ∧ hasField e messageKey = true) :
    ∃ m, run (.response st body) = .ok (dumps (.obj m)) ∧
      m.map Prod.fst = insertionOrder (elems.map (fun e => (recKey e).getD [])) := by
  refine ⟨pyDict (elems.map entryOf), transform_of hl rfl (buildCodes_eq elems hf), ?_⟩
  rw [pyDict_keys, List.map_map]
  rfl

/-- C8 witness: the key order on a body with an interleaved duplicate code. -/
theorem claim_C8_witness :
    ∃ m, run (.response 200
        (chars "[\x7b\"code\": 1, \"message\": \"a\"\x7d, \x7b\"code\": 2, \"message\": \"b\"\x7d, \x7b\"code\": 1, \"message\": \"c\"\x7d]")) =
      .ok (dumps (.obj m)) ∧
      m.map Prod.fst = insertionOrder
        ([JSON.obj [(chars "code", .num 1), (chars "message", .str (chars "a"))],
          JSON.obj [(chars "code", .num 2), (chars "message", .str (chars "b"))],
          JSON.obj [(chars "code", .num 1), (chars "message", .str (chars "c"))]].map
          (fun e => (recKey e).getD [])) :=
  claim_C8_insertion_order 200 _ _ rfl (by decide)

/-- C9: two response bodies whose arrays agree elementwise on the results of
the `code` and `message` subscripts produce identical runs and identical
final output-file contents, whatever other fields the records carry. -/
theorem claim_C9_noninterference (st st' : Nat) (body body' : Str)
    (elems elems' : List JSON)
    (h1 : loads body = some (.arr elems)) (h2 : loads body' = some (.arr elems'))
    (h3 : List.Forall₂ (fun e e' => getItem e codeKey = getItem e' codeKey ∧
      getItem e messageKey = getItem e' messageKey) elems elems') :
    run (.response st body) = run (.response st' body') ∧
    ∀ (writable : Bool) (file : Option Str),
      (runWorld ⟨.response st body, writable, file⟩).2 =
        (runWorld ⟨.response st' body', writable, file⟩).2 := by
  have hbc : buildCodes elems = buildCodes elems' := buildCodesAux_congr h3 []
  have hrun : run (.response st body) = run (.response st' body') := by
    show transform body = transform body'
    simp only [transform, h1, h2]
    show (match buildCodes elems with
      | Except.error e => Except.error e
      | Except.ok codes => Except.ok (dumps (JSON.obj codes))) =
      (match buildCodes elems' with
      | Except.error e => Except.error e
      | Except.ok codes => Except.ok (dumps (JSON.obj codes)))
    rw [hbc]
  refine ⟨hrun, ?_⟩
  intro writable file
  simp only [runWorld, script, hrun]

/-- C9 witness: a record with an extra field produces the same run as the
record without it. -/
theorem claim_C9_witness :
    run (.response 200 (chars "[\x7b\"code\": 1, \"message\": \"m\"\x7d]")) =
      run (.response 500
        (chars "[\x7b\"code\": 1, \"message\": \"m\", \"extra\": true\x7d]")) :=
  (claim_C9_noninterference 200 500
    (chars "[\x7b\"code\": 1, \"message\": \"m\"\x7d]")
    (chars "[\x7b\"code\": 1, \"message\": \"m\", \"extra\": true\x7d]")
    [JSON.obj [(chars "code", .num 1), (chars "message", .str (chars "m"))]]
    [JSON.obj [(chars "code", .num 1), (chars "message", .str (chars "m")),
      (chars "extra", .bool true)]]
    rfl rfl (List.Forall₂.cons ⟨rfl, rfl⟩ List.Forall₂.nil)).1

/-- C10: when the run fails before the write (network, parse, or schema
error), the trace contains the GET alone - in particular no truncating
`open` - so the prior output-file content is untouched. -/
theorem claim_C10_no_write_on_early_error (net : NetOutcome) (e : PyErr)
    (h : run net = .error e) :
    (script net).1 = [Event.httpGet] ∧
    Event.openTruncate ∉ (script net).1 ∧
    ∀ (writable : Bool) (file : Option Str), (runWorld ⟨net, writable, file⟩).2 = file := by
  have hs : script net = ([Event.httpGet], .error e) := by simp only [script, h]
  refine ⟨by rw [hs], by rw [hs]; simp, ?_⟩
  intro writable file
  simp only [runWorld, hs, applyEvents]

/-- C10 witness: a connection failure leaves a pre-existing output file
unchanged. -/
theorem claim_C10_witness :
    (script .failure).1 = [Event.httpGet] ∧
    (runWorld ⟨.failure, true, some (chars "old")⟩).2 = some (chars "old") := by
  have h := claim_C10_no_write_on_early_error .failure .network rfl
  exact ⟨h.1, h.2.2 true (some (chars "old"))⟩

end Twiml
